import Mathlib

/-!
concentratorconfig: the WireGuard peer reconciliation of ffbs/etcd-tools.

A shallow embedding of `src/concentratorconfig/main.go`:

* `sortIPNet` (lines 33-42), the canonical order on allowed-IP lists;
* `calculateWGPeerUpdates` (lines 44-135), the diff of the desired nodes of the
  etcd store against the peers of the WireGuard device;
* `run` (lines 144-186), the scheduling loop.

Go values are embedded as follows.  A byte slice or a string is a `List Nat` of
byte values, a `time.Duration` is an `Int`, a nilable pointer is an `Option`,
a Go map is an association list whose order is the order in which `range`
visits the entries (Go leaves that order open, the theorems hold for each
order), and a pair `(value, error)` is a record with an `Option Error`.
In-place writes to a slice that is shared with the caller are made explicit by
returning the caller's value after the call.
-/

namespace Concentratorconfig

/-! ## Data model -/

/-- A byte slice (`[]byte`), also the bytes of a Go `string`. -/
abbrev Bytes := List Nat

/-- Go `time.Duration`. -/
abbrev Duration := Int

/-- Go `net.IPNet`: the address bytes and the mask bytes. -/
structure IPNet where
  IP : Bytes
  Mask : Bytes
deriving DecidableEq, Repr

/-- The fields of `wgtypes.Peer` that the program reads. -/
structure Peer where
  PublicKey : Bytes
  PersistentKeepaliveInterval : Duration
  AllowedIPs : List IPNet
deriving DecidableEq, Repr

/-- Go `wgtypes.Device`, reduced to its peer list. -/
structure Device where
  Peers : List Peer
deriving DecidableEq, Repr

/-- The fields of `wgtypes.PeerConfig` that the program sets; the other fields
keep their zero value in every literal of the source. -/
structure PeerConfig where
  PublicKey : Bytes
  Remove : Bool
  PersistentKeepaliveInterval : Option Duration
  ReplaceAllowedIPs : Bool
  AllowedIPs : List IPNet
deriving DecidableEq, Repr

/-- Modelled from the spec: `ffbs.NodeInfo` is not part of the sources at hand.
A node is represented by what its two accessors return: `IPNets()` (the node's
full CIDR list) and `WGKeepaliveTime()` (the optional explicit keepalive). -/
structure NodeInfo where
  IPNets : List IPNet
  WGKeepaliveTime : Option Duration
deriving DecidableEq, Repr

/-- Go `map[string]*ffbs.NodeInfo`, in iteration order. -/
abbrev NodeMap := List (Bytes × NodeInfo)

/-- The errors that travel through the program. -/
inductive Error where
  | external (msg : String)
  | base64 (pubkey : Bytes)
  | keySize (len : Nat)
deriving DecidableEq, Repr

/-- Map index expression `nodes[pubkey]` with the comma-ok result. -/
def mapLookup : NodeMap → Bytes → Option NodeInfo
  | [], _ => none
  | (k, v) :: rest, key => if k = key then some v else mapLookup rest key

/-- Go builtin `delete(nodes, pubkey)`. -/
def mapDelete (nodes : NodeMap) (key : Bytes) : NodeMap :=
  nodes.filter (fun e => decide (e.1 ≠ key))

/-! ## Library functions used by the program -/

/-- Go `bytes.Compare`: lexicographic comparison, result -1, 0 or 1. -/
def bytesCompare : Bytes → Bytes → Int
  | [], [] => 0
  | [], _ :: _ => -1
  | _ :: _, [] => 1
  | a :: as, b :: bs =>
    if a < b then -1 else if b < a then 1 else bytesCompare as bs

/-- Go `bytes.Equal`. -/
def bytesEqual (a b : Bytes) : Bool := decide (a = b)

/-- The URL-safe alphabet of `encoding/base64`: the character of a sextet. -/
def encodeURL (v : Nat) : Nat :=
  if v < 26 then 65 + v
  else if v < 52 then 97 + (v - 26)
  else if v < 62 then 48 + (v - 52)
  else if v = 62 then 45
  else 95

/-- The decode map of the URL-safe alphabet: the sextet of a character, `none`
for a byte outside the alphabet (0xff in the Go table). -/
def decodeMap (c : Nat) : Option Nat :=
  if 65 ≤ c ∧ c ≤ 90 then some (c - 65)
  else if 97 ≤ c ∧ c ≤ 122 then some (c - 97 + 26)
  else if 48 ≤ c ∧ c ≤ 57 then some (c - 48 + 52)
  else if c = 45 then some 62
  else if c = 95 then some 63
  else none

/-- Go `base64.URLEncoding.EncodeToString` (padded, pad character `=`). -/
def EncodeToString : Bytes → Bytes
  | [] => []
  | [a] =>
    let val := a * 65536
    [encodeURL (val / 262144 % 64), encodeURL (val / 4096 % 64), 61, 61]
  | [a, b] =>
    let val := a * 65536 + b * 256
    [encodeURL (val / 262144 % 64), encodeURL (val / 4096 % 64),
     encodeURL (val / 64 % 64), 61]
  | a :: b :: c :: rest =>
    let val := a * 65536 + b * 256 + c
    encodeURL (val / 262144 % 64) :: encodeURL (val / 4096 % 64) ::
      encodeURL (val / 64 % 64) :: encodeURL (val % 64) :: EncodeToString rest

/-- Skips carriage returns and line feeds, as the decoder does around padding. -/
def skipNewlines : Bytes → Bytes
  | [] => []
  | c :: rest => if c = 10 ∨ c = 13 then skipNewlines rest else c :: rest

/-- The decoding loop of `encoding/base64` for the padded, non-strict URL
encoding.  `dbuf` holds the sextets of the quantum read so far.  Line breaks
are skipped, four sextets give three bytes, padding closes the input after two
or three sextets (the unused low bits of the last sextet are not checked), and
every other input is a `CorruptInputError`, here `none`. -/
def decodeLoop : Bytes → List Nat → Option Bytes
  | [], dbuf => if dbuf.isEmpty then some [] else none
  | c :: rest, dbuf =>
    match decodeMap c with
    | some v =>
      match dbuf with
      | [d0, d1, d2] =>
        let val := d0 * 262144 + d1 * 4096 + d2 * 64 + v
        match decodeLoop rest [] with
        | some out => some (val / 65536 % 256 :: val / 256 % 256 :: val % 256 :: out)
        | none => none
      | _ => decodeLoop rest (dbuf ++ [v])
    | none =>
      if c = 10 ∨ c = 13 then decodeLoop rest dbuf
      else if c ≠ 61 then none
      else
        match dbuf with
        | [d0, d1] =>
          match skipNewlines rest with
          | [] => none
          | c2 :: rest2 =>
            if c2 ≠ 61 then none
            else if skipNewlines rest2 = [] then
              some [(d0 * 262144 + d1 * 4096) / 65536 % 256]
            else none
        | [d0, d1, d2] =>
          if skipNewlines rest = [] then
            let val := d0 * 262144 + d1 * 4096 + d2 * 64
            some [val / 65536 % 256, val / 256 % 256]
          else none
        | _ => none

/-- Go `base64.URLEncoding.DecodeString`; `none` stands for a non-nil error. -/
def DecodeString (s : Bytes) : Option Bytes := decodeLoop s []

/-- Go `wgtypes.NewKey`: a key is made of exactly 32 bytes. -/
def NewKey (b : Bytes) : Except Error Bytes :=
  if b.length ≠ 32 then .error (.keySize b.length) else .ok b

/-! ## sortIPNet -/

/-- The `less` closure handed to `sort.Slice` in `sortIPNet`. -/
def ipNetLess (a b : IPNet) : Bool :=
  let res := bytesCompare a.IP b.IP
  if res ≠ 0 then decide (res > 0)
  else
    let res := bytesCompare a.Mask b.Mask
    decide (res > 0)

/-- The three-way comparison behind `ipNetLess`: address bytes first, mask
bytes on a tie. -/
def ipNetCmp (a b : IPNet) : Int :=
  if bytesCompare a.IP b.IP ≠ 0 then bytesCompare a.IP b.IP
  else bytesCompare a.Mask b.Mask

/-- The order that a slice sorted by `ipNetLess` is in: no later element is
`less` than an earlier one. -/
def ipNetOrd (a b : IPNet) : Prop := ipNetLess b a = false

instance : DecidableRel ipNetOrd := fun a b =>
  inferInstanceAs (Decidable (ipNetLess b a = false))

/-- The function `sortIPNet`: the slice after `sort.Slice` with `ipNetLess`.
`sort.Slice` leaves the input a permutation in which no later element is less
than an earlier one; `sortIPNet_unique` shows there is only one such list. -/
def sortIPNet (s : List IPNet) : List IPNet := List.insertionSort ipNetOrd s

/-! ## calculateWGPeerUpdates -/

/-- Keepalive resolution, lines 86-93 and again lines 117-124: the node's own
value, else the default node's value, else `0 * time.Second`. -/
def resolveKeepalive (node defNode : NodeInfo) : Duration :=
  match node.WGKeepaliveTime with
  | some keepalive => keepalive
  | none =>
    match defNode.WGKeepaliveTime with
    | some keepalive => keepalive
    | none => 0

/-- The comparison loop of lines 74-83 over `nets` and `peer.AllowedIPs`, run
when both have the same length. -/
def equalNetLoop : List IPNet → List IPNet → Bool
  | cur :: nets, a :: allowed =>
    if !bytesEqual cur.IP a.IP then false
    else if !bytesEqual cur.Mask a.Mask then false
    else equalNetLoop nets allowed
  | _, _ => true

/-- The flag `equalNet` of lines 70-84. -/
def equalNet (nets allowed : List IPNet) : Bool :=
  if nets.length ≠ allowed.length then false else equalNetLoop nets allowed

/-- The state after the loop over `dev.Peers`: the entries left in `nodes`, the
operations appended to `updates`, and the peers of the device as the loop
leaves them. -/
structure ExistingResult where
  nodes : NodeMap
  updates : List PeerConfig
  peers : List Peer
deriving DecidableEq, Repr

/-- The loop "remove and update existing nodes", lines 53-104.  The peer's
`AllowedIPs` slice shares its array with the device, so `sortIPNet` on it
reorders the device's own list. -/
def updateExisting (defNode : NodeInfo) : NodeMap → List Peer → ExistingResult
  | nodes, [] => ⟨nodes, [], []⟩
  | nodes, peer :: rest =>
    let pubkey := EncodeToString peer.PublicKey
    let r := updateExisting defNode (mapDelete nodes pubkey) rest
    match mapLookup nodes pubkey with
    | none =>
      ⟨r.nodes,
       { PublicKey := peer.PublicKey, Remove := true,
         PersistentKeepaliveInterval := none, ReplaceAllowedIPs := false,
         AllowedIPs := [] } :: r.updates,
       peer :: r.peers⟩
    | some node =>
      let nets := sortIPNet node.IPNets
      let allowed := sortIPNet peer.AllowedIPs
      let keepalive := resolveKeepalive node defNode
      let keepaliveChanged := decide (keepalive ≠ peer.PersistentKeepaliveInterval)
      if !equalNet nets allowed || keepaliveChanged then
        ⟨r.nodes,
         { PublicKey := peer.PublicKey, Remove := false,
           PersistentKeepaliveInterval := some keepalive, ReplaceAllowedIPs := true,
           AllowedIPs := nets } :: r.updates,
         { peer with AllowedIPs := allowed } :: r.peers⟩
      else
        ⟨r.nodes, r.updates, { peer with AllowedIPs := allowed } :: r.peers⟩

/-- The loop "add new nodes", lines 107-132, over the entries left in `nodes`;
the first entry whose key does not decode to a key ends the call. -/
def addNew (defNode : NodeInfo) : NodeMap → Except Error (List PeerConfig)
  | [] => .ok []
  | (pubkey, node) :: rest =>
    match DecodeString pubkey with
    | none => .error (.base64 pubkey)
    | some decpkey =>
      match NewKey decpkey with
      | .error err => .error err
      | .ok pkey =>
        match addNew defNode rest with
        | .error err => .error err
        | .ok updates =>
          .ok ({ PublicKey := pkey, Remove := false,
                 PersistentKeepaliveInterval := some (resolveKeepalive node defNode),
                 ReplaceAllowedIPs := true, AllowedIPs := node.IPNets } :: updates)

/-- What a call of `calculateWGPeerUpdates` leaves behind: the two results
`([]wgtypes.PeerConfig, error)`, the device the caller passed in, and the map
`nodes` of the call after its deletions (empty when the fetch failed). -/
structure CalcResult where
  updates : List PeerConfig
  err : Option Error
  dev : Device
  nodes : NodeMap
deriving DecidableEq, Repr

/-- The function `calculateWGPeerUpdates`.  `etcd` is what
`etcd.GetAllNodeInfo` answers to this call: an error, or the node map and the
default node.  The specification has both "read fresh every cycle from the
store (no local caching)", so the answer is a value of its own and the
deletions of line 56 act on the map of this call, kept in the field `nodes`. -/
def calculateWGPeerUpdates (etcd : Except Error (NodeMap × NodeInfo)) (dev : Device) :
    CalcResult :=
  match etcd with
  | .error err => ⟨[], some err, dev, []⟩
  | .ok (nodes, defNode) =>
    let r := updateExisting defNode nodes dev.Peers
    match addNew defNode r.nodes with
    | .error err => ⟨[], some err, ⟨r.peers⟩, r.nodes⟩
    | .ok news => ⟨r.updates ++ news, none, ⟨r.peers⟩, r.nodes⟩

/-! ## run -/

/-- Go struct `CLIConfig`. -/
structure CLIConfig where
  EtcdConfig : String
  UpdateInterval : Duration
  WGDeviceName : String
  Simulate : Bool
deriving DecidableEq, Repr

/-- What `run` does to the outside, in order. -/
inductive Event where
  | fatal (err : Error)
  | readDevice (name : String)
  | diff
  | logDeviceError (err : Error)
  | logDiffError (err : Error)
  | printUpdates (updates : List PeerConfig)
  | configureDevice (name : String) (peers : List PeerConfig)
  | logApplyError (err : Error)
  | logUpdated (count : Nat)
  | sleep (interval : Duration)
deriving DecidableEq, Repr

/-- What the store and the controller answer during one pass of the outer
loop: `wg.Device`, `etcd.GetAllNodeInfo`, and `wg.ConfigureDevice` if called. -/
structure CycleEnv where
  device : Except Error Device
  etcd : Except Error (NodeMap × NodeInfo)
  configure : Option Error

/-- The inner `for` of lines 157-183: the events of one pass, and whether the
pass left `run` through `return` (otherwise it left through `break`). -/
def cycle (config : CLIConfig) (env : CycleEnv) : List Event × Bool :=
  match env.device with
  | .error err => ([.readDevice config.WGDeviceName, .logDeviceError err], false)
  | .ok dev =>
    let r := calculateWGPeerUpdates env.etcd dev
    match r.err with
    | some err => ([.readDevice config.WGDeviceName, .diff, .logDiffError err], false)
    | none =>
      if config.Simulate then
        ([.readDevice config.WGDeviceName, .diff, .printUpdates r.updates], true)
      else if r.updates.length = 0 then
        ([.readDevice config.WGDeviceName, .diff], false)
      else
        match env.configure with
        | some err =>
          ([.readDevice config.WGDeviceName, .diff,
            .configureDevice config.WGDeviceName r.updates, .logApplyError err], false)
        | none =>
          ([.readDevice config.WGDeviceName, .diff,
            .configureDevice config.WGDeviceName r.updates,
            .logUpdated r.updates.length], false)

/-- The outer `for` of lines 155-185 against the answers of the first
`world.length` passes: the events so far, and whether `run` has returned. -/
def runLoop (config : CLIConfig) : List CycleEnv → List Event × Bool
  | [] => ([], false)
  | env :: world =>
    let c := cycle config env
    if c.2 then (c.1, true)
    else
      let r := runLoop config world
      (c.1 ++ .sleep config.UpdateInterval :: r.1, r.2)

/-- The function `run`: the two connections are set up (`log.Fatalln` ends the
process when one fails), then the loop runs. -/
def run (config : CLIConfig) (etcdConn wgNew : Option Error) (world : List CycleEnv) :
    List Event × Bool :=
  match etcdConn with
  | some err => ([.fatal err], true)
  | none =>
    match wgNew with
    | some err => ([.fatal err], true)
    | none => runLoop config world

/-! ## Well-formed inputs and the entries left for the second loop -/

/-- Every element is a byte value. -/
def BytesOK (k : Bytes) : Prop := ∀ x ∈ k, x < 256

instance (k : Bytes) : Decidable (BytesOK k) :=
  inferInstanceAs (Decidable (∀ x ∈ k, x < 256))

/-- The values of Go type `wgtypes.Key`, which is `[32]byte`. -/
def KeyOK (k : Bytes) : Prop := k.length = 32 ∧ BytesOK k

instance (k : Bytes) : Decidable (KeyOK k) :=
  inferInstanceAs (Decidable (k.length = 32 ∧ BytesOK k))

/-- Every peer of the device carries a `wgtypes.Key`. -/
def DeviceOK (dev : Device) : Prop := ∀ p ∈ dev.Peers, KeyOK p.PublicKey

instance (dev : Device) : Decidable (DeviceOK dev) :=
  inferInstanceAs (Decidable (∀ p ∈ dev.Peers, KeyOK p.PublicKey))

/-- The public keys of the peers are pairwise distinct. -/
def DistinctKeys (dev : Device) : Prop :=
  (dev.Peers.map (fun p : Peer => p.PublicKey)).Nodup

instance (dev : Device) : Decidable (DistinctKeys dev) :=
  inferInstanceAs (Decidable ((dev.Peers.map (fun p : Peer => p.PublicKey)).Nodup))

/-- The desired entries whose key is not the encoded public key of any peer. -/
def unmatched (peers : List Peer) (nodes : NodeMap) : NodeMap :=
  nodes.filter (fun e => peers.all (fun p => decide (EncodeToString p.PublicKey ≠ e.1)))

/-- The operation of the first loop for a peer without a desired entry. -/
def removeOp (peer : Peer) : PeerConfig :=
  { PublicKey := peer.PublicKey, Remove := true, PersistentKeepaliveInterval := none,
    ReplaceAllowedIPs := false, AllowedIPs := [] }

/-- A replace operation: full allowed-IP list and a keepalive. -/
def replaceOp (key : Bytes) (keepalive : Duration) (nets : List IPNet) : PeerConfig :=
  { PublicKey := key, Remove := false, PersistentKeepaliveInterval := some keepalive,
    ReplaceAllowedIPs := true, AllowedIPs := nets }

/-- What the first loop appends for one peer, given what `nodes[pubkey]`
answers at the peer's turn. -/
def opsFor (defNode : NodeInfo) (entry : Option NodeInfo) (peer : Peer) : List PeerConfig :=
  match entry with
  | none => [removeOp peer]
  | some node =>
    if !equalNet (sortIPNet node.IPNets) (sortIPNet peer.AllowedIPs) ||
        decide (resolveKeepalive node defNode ≠ peer.PersistentKeepaliveInterval) then
      [replaceOp peer.PublicKey (resolveKeepalive node defNode) (sortIPNet node.IPNets)]
    else []

/-- What the first loop leaves of one peer of the device. -/
def touch (entry : Option NodeInfo) (peer : Peer) : Peer :=
  match entry with
  | none => peer
  | some _ => { peer with AllowedIPs := sortIPNet peer.AllowedIPs }

/-- The operation of the second loop for an entry left in the map, when its
key decodes. -/
def newOp (defNode : NodeInfo) (e : Bytes × NodeInfo) : PeerConfig :=
  replaceOp ((DecodeString e.1).getD []) (resolveKeepalive e.2 defNode) e.2.IPNets

/-- The key decodes, under the URL-safe base64 decoder, to exactly 32 bytes. -/
def GoodKey (k : Bytes) : Prop := ∃ b, DecodeString k = some b ∧ b.length = 32

/-- Whether an event is a call of `wg.ConfigureDevice`. -/
def Event.isConfigure : Event → Bool
  | .configureDevice _ _ => true
  | _ => false

/-- Whether an event is a `time.Sleep`. -/
def Event.isSleep : Event → Bool
  | .sleep _ => true
  | _ => false

/-- A pass in which reading the device or the diff fails. -/
def CycleEnv.Fails (env : CycleEnv) : Prop :=
  match env.device with
  | .error _ => True
  | .ok dev => (calculateWGPeerUpdates env.etcd dev).err ≠ none

/-- The events of a pass that fails: the device is read and that error is
logged, or the device is read, the diff is run and its error is logged. -/
def failureEvents (config : CLIConfig) (env : CycleEnv) : List Event :=
  match env.device with
  | .error err => [.readDevice config.WGDeviceName, .logDeviceError err]
  | .ok dev =>
    match (calculateWGPeerUpdates env.etcd dev).err with
    | some err => [.readDevice config.WGDeviceName, .diff, .logDiffError err]
    | none => []

/-- The events of a row of failing passes: each pass is followed by the
sleep. -/
def failedPasses (config : CLIConfig) : List CycleEnv → List Event
  | [] => []
  | f :: rest =>
    failureEvents config f ++ Event.sleep config.UpdateInterval :: failedPasses config rest

/-! ## Sample inputs -/

/-- A public key: 32 zero bytes. -/
def keyA : Bytes := List.replicate 32 0

/-- A second public key: 32 bytes of value one. -/
def keyB : Bytes := List.replicate 32 1

/-- A map key that is not the encoding of `keyA` and decodes to `keyA`: the
last sextet `B` carries two low bits that the decoder drops. -/
def aliasA : Bytes := List.replicate 42 65 ++ [66, 61]

/-- Another map key that decodes to `keyA`, with last sextet `C`. -/
def aliasA2 : Bytes := List.replicate 42 65 ++ [67, 61]

/-- A map key outside the base64 alphabet: the string `!`. -/
def badKey : Bytes := [33]

/-- The network 10.0.0.`d`/32. -/
def net32 (d : Nat) : IPNet := ⟨[10, 0, 0, d], [255, 255, 255, 255]⟩

/-! ## The order of `sortIPNet` -/

theorem bytesCompare_swap (a b : Bytes) : bytesCompare b a = - bytesCompare a b := by
  induction a generalizing b with
  | nil => cases b <;> simp [bytesCompare]
  | cons x xs ih =>
    cases b with
    | nil => simp [bytesCompare]
    | cons y ys =>
      simp only [bytesCompare]
      by_cases h1 : x < y
      · have h2 : ¬ y < x := by omega
        simp [h1, h2]
      · by_cases h2 : y < x
        · simp [h1, h2]
        · simp [h1, h2, ih ys]

theorem bytesCompare_self (a : Bytes) : bytesCompare a a = 0 := by
  induction a with
  | nil => rfl
  | cons x xs ih => simp [bytesCompare, ih]

theorem bytesCompare_eq_zero {a b : Bytes} (h : bytesCompare a b = 0) : a = b := by
  induction a generalizing b with
  | nil => cases b <;> simp_all [bytesCompare]
  | cons x xs ih =>
    cases b with
    | nil => simp [bytesCompare] at h
    | cons y ys =>
      simp only [bytesCompare] at h
      by_cases h1 : x < y
      · simp [h1] at h
      · by_cases h2 : y < x
        · simp [h1, h2] at h
        · simp only [h1, h2, if_false] at h
          have hxy : x = y := by omega
          rw [hxy, ih h]

theorem bytesCompare_trans {a b c : Bytes} (hab : 0 < bytesCompare a b)
    (hbc : 0 < bytesCompare b c) : 0 < bytesCompare a c := by
  induction a generalizing b c with
  | nil => cases b <;> simp [bytesCompare] at hab
  | cons x xs ih =>
    cases b with
    | nil => cases c <;> simp [bytesCompare] at hbc
    | cons y ys =>
      cases c with
      | nil => simp [bytesCompare]
      | cons z zs =>
        simp only [bytesCompare] at hab hbc ⊢
        by_cases h1 : x < y
        · simp [h1] at hab
        · by_cases h2 : y < x
          · by_cases h3 : y < z
            · simp [h3] at hbc
            · have h4 : ¬ x < z := by omega
              have h5 : z < x := by omega
              simp [h4, h5]
          · have hxy : x = y := by omega
            subst hxy
            simp only [h1, if_false] at hab
            by_cases h3 : x < z
            · simp [h3] at hbc
            · by_cases h4 : z < x
              · simp [h3, h4]
              · simp only [h3, h4, if_false] at hbc ⊢
                exact ih hab hbc

theorem ipNetLess_iff (a b : IPNet) : ipNetLess a b = true ↔ 0 < ipNetCmp a b := by
  unfold ipNetLess ipNetCmp
  by_cases h : bytesCompare a.IP b.IP = 0 <;> simp [h]

theorem ipNetOrd_iff (a b : IPNet) : ipNetOrd a b ↔ 0 ≤ ipNetCmp a b := by
  unfold ipNetOrd
  have hs : ipNetCmp b a = - ipNetCmp a b := by
    unfold ipNetCmp
    rw [bytesCompare_swap a.IP b.IP, bytesCompare_swap a.Mask b.Mask]
    by_cases h : bytesCompare a.IP b.IP = 0 <;> simp [h]
  have := ipNetLess_iff b a
  rw [hs] at this
  cases hl : ipNetLess b a
  · simp only [true_iff]
    by_contra hc
    have : ipNetLess b a = true := this.2 (by omega)
    simp [hl] at this
  · have := this.1 hl
    simp only [Bool.true_eq_false, false_iff]
    omega

theorem ipNetCmp_eq_zero {a b : IPNet} (h : ipNetCmp a b = 0) : a = b := by
  unfold ipNetCmp at h
  by_cases h1 : bytesCompare a.IP b.IP = 0
  · simp only [h1, ne_eq, not_true_eq_false, if_false] at h
    cases a; cases b
    simp only [IPNet.mk.injEq]
    exact ⟨bytesCompare_eq_zero h1, bytesCompare_eq_zero h⟩
  · simp [h1] at h

theorem ipNetCmp_self (a : IPNet) : ipNetCmp a a = 0 := by
  simp [ipNetCmp, bytesCompare_self]

theorem ipNetCmp_trans {a b c : IPNet} (hab : 0 < ipNetCmp a b) (hbc : 0 < ipNetCmp b c) :
    0 < ipNetCmp a c := by
  unfold ipNetCmp at hab hbc ⊢
  by_cases h1 : bytesCompare a.IP b.IP = 0
  · have e1 := bytesCompare_eq_zero h1
    simp only [h1, ne_eq, not_true_eq_false, if_false] at hab
    by_cases h2 : bytesCompare b.IP c.IP = 0
    · have e2 := bytesCompare_eq_zero h2
      simp only [h2, ne_eq, not_true_eq_false, if_false] at hbc
      have h3 : bytesCompare a.IP c.IP = 0 := by rw [e1, e2]; exact bytesCompare_self _
      simp only [h3, ne_eq, not_true_eq_false, if_false]
      exact bytesCompare_trans hab hbc
    · simp only [ne_eq, h2, not_false_eq_true, if_true] at hbc
      rw [e1]
      simp only [ne_eq, h2, not_false_eq_true, if_true]
      exact hbc
  · simp only [ne_eq, h1, not_false_eq_true, if_true] at hab
    by_cases h2 : bytesCompare b.IP c.IP = 0
    · have e2 := bytesCompare_eq_zero h2
      rw [← e2]
      simp only [ne_eq, h1, not_false_eq_true, if_true]
      exact hab
    · simp only [ne_eq, h2, not_false_eq_true, if_true] at hbc
      have h3 := bytesCompare_trans hab hbc
      have h4 : bytesCompare a.IP c.IP ≠ 0 := by omega
      simp only [ne_eq, h4, not_false_eq_true, if_true]
      exact h3

instance : IsTotal IPNet ipNetOrd where
  total a b := by
    rw [ipNetOrd_iff, ipNetOrd_iff]
    have hs : ipNetCmp b a = - ipNetCmp a b := by
      unfold ipNetCmp
      rw [bytesCompare_swap a.IP b.IP, bytesCompare_swap a.Mask b.Mask]
      by_cases h : bytesCompare a.IP b.IP = 0 <;> simp [h]
    omega

instance : IsTrans IPNet ipNetOrd where
  trans a b c hab hbc := by
    rw [ipNetOrd_iff] at hab hbc ⊢
    by_cases h1 : ipNetCmp a b = 0
    · rw [ipNetCmp_eq_zero h1]; exact hbc
    · by_cases h2 : ipNetCmp b c = 0
      · rw [← ipNetCmp_eq_zero h2]; exact hab
      · have := @ipNetCmp_trans a b c (by omega) (by omega)
        omega

instance : IsAntisymm IPNet ipNetOrd where
  antisymm a b hab hba := by
    rw [ipNetOrd_iff] at hab hba
    have hs : ipNetCmp b a = - ipNetCmp a b := by
      unfold ipNetCmp
      rw [bytesCompare_swap a.IP b.IP, bytesCompare_swap a.Mask b.Mask]
      by_cases h : bytesCompare a.IP b.IP = 0 <;> simp [h]
    exact ipNetCmp_eq_zero (by omega)

theorem sortIPNet_perm (s : List IPNet) : (sortIPNet s).Perm s :=
  List.perm_insertionSort ipNetOrd s

theorem sortIPNet_sorted (s : List IPNet) : List.Sorted ipNetOrd (sortIPNet s) :=
  List.sorted_insertionSort ipNetOrd s

/-- Every arrangement of `s` that `sort.Slice` may leave (a permutation of `s`
in which no later element is less than an earlier one) is `sortIPNet s`. -/
theorem sortIPNet_unique (s t : List IPNet) (hp : t.Perm s) (hs : List.Sorted ipNetOrd t) :
    t = sortIPNet s :=
  List.eq_of_perm_of_sorted (hp.trans (sortIPNet_perm s).symm) hs (sortIPNet_sorted s)

theorem sortIPNet_congr {s t : List IPNet} (h : s.Perm t) : sortIPNet s = sortIPNet t :=
  sortIPNet_unique t (sortIPNet s) ((sortIPNet_perm s).trans h) (sortIPNet_sorted s)

/-! ## base64: decoding undoes encoding -/

theorem skipNewlines_nil : skipNewlines [] = [] := rfl

theorem decodeMap_encodeURL (v : Nat) (h : v < 64) : decodeMap (encodeURL v) = some v := by
  have key : ∀ w : Fin 64, decodeMap (encodeURL w.1) = some w.1 := by decide
  exact key ⟨v, h⟩

theorem decodeLoop_quad (s0 s1 s2 s3 : Nat) (h0 : s0 < 64) (h1 : s1 < 64) (h2 : s2 < 64)
    (h3 : s3 < 64) (tl : Bytes) :
    decodeLoop (encodeURL s0 :: encodeURL s1 :: encodeURL s2 :: encodeURL s3 :: tl) [] =
      (decodeLoop tl []).map (fun out =>
        (s0 * 262144 + s1 * 4096 + s2 * 64 + s3) / 65536 % 256 ::
        (s0 * 262144 + s1 * 4096 + s2 * 64 + s3) / 256 % 256 ::
        (s0 * 262144 + s1 * 4096 + s2 * 64 + s3) % 256 :: out) := by
  simp only [decodeLoop, decodeMap_encodeURL, h0, h1, h2, h3, List.nil_append,
    List.cons_append]
  cases decodeLoop tl [] <;> rfl

theorem DecodeString_EncodeToString (k : Bytes) (hk : BytesOK k) :
    DecodeString (EncodeToString k) = some k := by
  unfold DecodeString
  induction k using EncodeToString.induct with
  | case1 => rfl
  | case2 a =>
    have ha : a < 256 := hk a (by simp)
    simp only [EncodeToString]
    have e0 : decodeMap (encodeURL (a * 65536 / 262144 % 64)) = some (a * 65536 / 262144 % 64) :=
      decodeMap_encodeURL _ (by omega)
    have e1 : decodeMap (encodeURL (a * 65536 / 4096 % 64)) = some (a * 65536 / 4096 % 64) :=
      decodeMap_encodeURL _ (by omega)
    have e2 : decodeMap 61 = none := by decide
    simp only [decodeLoop, e0, e1, e2, List.nil_append, List.cons_append, skipNewlines]
    simp only [ne_eq, not_true_eq_false, if_false, if_true, reduceCtorEq, false_or,
      Nat.reduceEqDiff, or_self, skipNewlines_nil, List.cons.injEq, and_true,
      Option.some.injEq]
    omega
  | case3 a b =>
    have ha : a < 256 := hk a (by simp)
    have hb : b < 256 := hk b (by simp)
    simp only [EncodeToString]
    have e0 := decodeMap_encodeURL ((a * 65536 + b * 256) / 262144 % 64) (by omega)
    have e1 := decodeMap_encodeURL ((a * 65536 + b * 256) / 4096 % 64) (by omega)
    have e2 := decodeMap_encodeURL ((a * 65536 + b * 256) / 64 % 64) (by omega)
    have e3 : decodeMap 61 = none := by decide
    simp only [decodeLoop, e0, e1, e2, e3, List.nil_append, List.cons_append, skipNewlines]
    simp only [ne_eq, not_true_eq_false, if_false, if_true, reduceCtorEq, false_or,
      Nat.reduceEqDiff, or_self, skipNewlines_nil, List.cons.injEq, and_true,
      Option.some.injEq]
    omega
  | case4 a b c rest ih =>
    have ha : a < 256 := hk a (by simp)
    have hb : b < 256 := hk b (by simp)
    have hc : c < 256 := hk c (by simp)
    have hrest : BytesOK rest := fun x hx => hk x (by simp [hx])
    simp only [EncodeToString]
    rw [decodeLoop_quad _ _ _ _ (by omega) (by omega) (by omega) (by omega), ih hrest]
    simp only [Option.map_some', Option.some.injEq, List.cons.injEq, and_true]
    omega

theorem EncodeToString_injective {a b : Bytes} (ha : BytesOK a) (hb : BytesOK b)
    (h : EncodeToString a = EncodeToString b) : a = b := by
  have h1 := DecodeString_EncodeToString a ha
  rw [h, DecodeString_EncodeToString b hb] at h1
  exact (Option.some.inj h1).symm

/-! ## The map operations -/

theorem mapLookup_mapDelete (nodes : NodeMap) (k key : Bytes) :
    mapLookup (mapDelete nodes k) key = if k = key then none else mapLookup nodes key := by
  induction nodes with
  | nil => simp [mapDelete, mapLookup]
  | cons e rest ih =>
    obtain ⟨k0, v⟩ := e
    unfold mapDelete at ih ⊢
    by_cases h0 : k0 = k
    · subst h0
      simp only [List.filter, ne_eq, not_true_eq_false, decide_False, ih]
      by_cases h1 : k0 = key
      · simp [h1]
      · simp [h1, mapLookup]
    · simp only [List.filter, ne_eq, h0, not_false_eq_true, decide_True, mapLookup, ih]
      by_cases h1 : k0 = key
      · subst h1
        have : ¬ k = k0 := fun h => h0 h.symm
        simp [this]
      · simp [h1]

theorem mapLookup_eq_none_iff (nodes : NodeMap) (key : Bytes) :
    mapLookup nodes key = none ↔ key ∉ nodes.map Prod.fst := by
  induction nodes with
  | nil => simp [mapLookup]
  | cons e rest ih =>
    obtain ⟨k0, v⟩ := e
    by_cases h : k0 = key
    · simp [mapLookup, h]
    · have h' : ¬ key = k0 := fun e => h e.symm
      simp only [mapLookup, h, if_false, ih, List.map_cons, List.mem_cons, h', false_or]

theorem mapLookup_mem {nodes : NodeMap} {key : Bytes} {node : NodeInfo}
    (h : mapLookup nodes key = some node) : (key, node) ∈ nodes := by
  induction nodes with
  | nil => simp [mapLookup] at h
  | cons e rest ih =>
    obtain ⟨k0, v⟩ := e
    by_cases h0 : k0 = key
    · simp only [mapLookup, h0, if_true, Option.some.injEq] at h
      simp [h0, h]
    · simp only [mapLookup, h0, if_false] at h
      exact List.mem_cons_of_mem _ (ih h)

/-! ## The first loop -/

theorem updateExisting_nodes (defNode : NodeInfo) (nodes : NodeMap) (peers : List Peer) :
    (updateExisting defNode nodes peers).nodes = unmatched peers nodes := by
  induction peers generalizing nodes with
  | nil => simp [updateExisting, unmatched]
  | cons q rest ih =>
    have key : (updateExisting defNode nodes (q :: rest)).nodes =
        (updateExisting defNode (mapDelete nodes (EncodeToString q.PublicKey)) rest).nodes := by
      simp only [updateExisting]
      split
      · rfl
      · split <;> rfl
    rw [key, ih]
    unfold unmatched mapDelete
    rw [List.filter_filter]
    apply List.filter_congr
    intro e _
    simp only [List.all_cons, ne_eq, decide_not, Bool.and_comm]
    congr 1
    by_cases h : EncodeToString q.PublicKey = e.1
    · simp [h]
    · have h' : ¬ e.1 = EncodeToString q.PublicKey := fun x => h x.symm
      simp [h, h']

theorem updateExisting_cons (defNode : NodeInfo) (nodes : NodeMap) (q : Peer)
    (rest : List Peer) :
    (updateExisting defNode nodes (q :: rest)).updates =
        opsFor defNode (mapLookup nodes (EncodeToString q.PublicKey)) q ++
          (updateExisting defNode (mapDelete nodes (EncodeToString q.PublicKey)) rest).updates ∧
      (updateExisting defNode nodes (q :: rest)).peers =
        touch (mapLookup nodes (EncodeToString q.PublicKey)) q ::
          (updateExisting defNode (mapDelete nodes (EncodeToString q.PublicKey)) rest).peers := by
  simp only [updateExisting]
  split
  · rename_i h
    simp [h, opsFor, touch, removeOp]
  · rename_i node h
    split
    · rename_i hc
      simp only [h, opsFor, touch, replaceOp, hc, if_true, List.singleton_append, and_self]
    · rename_i hc
      simp only [h, opsFor, touch, hc, List.nil_append, and_self]
      simp

theorem opsFor_key {defNode : NodeInfo} {entry : Option NodeInfo} {q : Peer} {u : PeerConfig}
    (h : u ∈ opsFor defNode entry q) : u.PublicKey = q.PublicKey := by
  unfold opsFor at h
  split at h
  · simp only [List.mem_singleton] at h
    rw [h]; rfl
  · split at h
    · simp only [List.mem_singleton] at h
      rw [h]; rfl
    · simp at h

theorem updateExisting_keys (defNode : NodeInfo) (nodes : NodeMap) (peers : List Peer) :
    ((updateExisting defNode nodes peers).updates.map (fun u => u.PublicKey)).Sublist
      (peers.map (fun p => p.PublicKey)) := by
  induction peers generalizing nodes with
  | nil => simp [updateExisting]
  | cons q rest ih =>
    rw [(updateExisting_cons defNode nodes q rest).1, List.map_append, List.map_cons]
    have hrest := ih (mapDelete nodes (EncodeToString q.PublicKey))
    unfold opsFor
    split
    · simpa [removeOp] using hrest
    · split
      · simpa [replaceOp] using hrest
      · simpa using hrest.cons _

theorem updateExisting_mem_key {defNode : NodeInfo} {nodes : NodeMap} {peers : List Peer}
    {u : PeerConfig} (h : u ∈ (updateExisting defNode nodes peers).updates) :
    ∃ q ∈ peers, u.PublicKey = q.PublicKey := by
  have h1 : u.PublicKey ∈ (updateExisting defNode nodes peers).updates.map (fun u => u.PublicKey) :=
    List.mem_map_of_mem _ h
  have h2 := (updateExisting_keys defNode nodes peers).subset h1
  obtain ⟨q, hq, e⟩ := List.mem_map.1 h2
  exact ⟨q, hq, e.symm⟩

/-- The operations of the first loop that carry the key of the peer `p`: what
the loop appends at the turn of `p`, when no earlier peer has taken the entry
of `p` out of the map. -/
theorem updateExisting_filter (defNode : NodeInfo) (nodes : NodeMap) (peers : List Peer)
    (p : Peer) (hp : p ∈ peers) (hnd : (peers.map (fun q => q.PublicKey)).Nodup)
    (hne : mapLookup nodes (EncodeToString p.PublicKey) = none ∨
      ∀ q ∈ peers, q.PublicKey ≠ p.PublicKey →
        EncodeToString q.PublicKey ≠ EncodeToString p.PublicKey) :
    (updateExisting defNode nodes peers).updates.filter
        (fun u => decide (u.PublicKey = p.PublicKey)) =
      opsFor defNode (mapLookup nodes (EncodeToString p.PublicKey)) p := by
  induction peers generalizing nodes with
  | nil => simp at hp
  | cons q rest ih =>
    rw [(updateExisting_cons defNode nodes q rest).1, List.filter_append]
    rw [List.map_cons, List.nodup_cons] at hnd
    rcases List.mem_cons.1 hp with hpq | hpr
    · subst hpq
      have h1 : (opsFor defNode (mapLookup nodes (EncodeToString p.PublicKey)) p).filter
          (fun u => decide (u.PublicKey = p.PublicKey)) =
          opsFor defNode (mapLookup nodes (EncodeToString p.PublicKey)) p := by
        rw [List.filter_eq_self]
        intro u hu
        simp [opsFor_key hu]
      have h2 : (updateExisting defNode (mapDelete nodes (EncodeToString p.PublicKey))
          rest).updates.filter (fun u => decide (u.PublicKey = p.PublicKey)) = [] := by
        rw [List.filter_eq_nil_iff]
        intro u hu
        obtain ⟨q, hq, e⟩ := updateExisting_mem_key hu
        simp only [decide_eq_true_eq]
        intro hk
        exact hnd.1 (List.mem_map.2 ⟨q, hq, by rw [← e, hk]⟩)
      rw [h1, h2, List.append_nil]
    · have hqp : q.PublicKey ≠ p.PublicKey := by
        intro e
        exact hnd.1 (List.mem_map.2 ⟨p, hpr, e.symm⟩)
      have h1 : (opsFor defNode (mapLookup nodes (EncodeToString q.PublicKey)) q).filter
          (fun u => decide (u.PublicKey = p.PublicKey)) = [] := by
        rw [List.filter_eq_nil_iff]
        intro u hu
        simp [opsFor_key hu, hqp]
      have hl : mapLookup (mapDelete nodes (EncodeToString q.PublicKey))
          (EncodeToString p.PublicKey) = mapLookup nodes (EncodeToString p.PublicKey) := by
        rw [mapLookup_mapDelete]
        rcases hne with h | h
        · simp [h]
        · simp [h q (List.mem_cons_self _ _) hqp]
      rw [h1, List.nil_append, ih (mapDelete nodes (EncodeToString q.PublicKey)) hpr hnd.2
        (by
          rcases hne with h | h
          · left; rw [hl]; exact h
          · right; intro r hr; exact h r (List.mem_cons_of_mem _ hr)), hl]

/-! ## The second loop -/

theorem goodKey_or_bad (k : Bytes) :
    GoodKey k ∨ (DecodeString k = none ∨ ∃ b, DecodeString k = some b ∧ b.length ≠ 32) := by
  unfold GoodKey
  cases h : DecodeString k with
  | none => right; left; rfl
  | some b =>
    by_cases hb : b.length = 32
    · left; exact ⟨b, rfl, hb⟩
    · right; right; exact ⟨b, rfl, hb⟩

theorem not_goodKey_iff (k : Bytes) :
    ¬ GoodKey k ↔ (DecodeString k = none ∨ ∃ b, DecodeString k = some b ∧ b.length ≠ 32) := by
  constructor
  · intro h
    rcases goodKey_or_bad k with g | b
    · exact absurd g h
    · exact b
  · rintro (h | ⟨b, hb, hl⟩) ⟨c, hc, hcl⟩
    · rw [h] at hc; cases hc
    · rw [hb] at hc; cases hc; exact hl hcl

theorem addNew_ok_iff (defNode : NodeInfo) (l : NodeMap) (news : List PeerConfig) :
    addNew defNode l = .ok news ↔ (∀ e ∈ l, GoodKey e.1) ∧ news = l.map (newOp defNode) := by
  induction l generalizing news with
  | nil =>
    simp only [addNew, List.not_mem_nil, false_implies, implies_true, List.map_nil, true_and]
    constructor
    · intro h; cases h; rfl
    · intro h; rw [h]
  | cons e rest ih =>
    obtain ⟨k, node⟩ := e
    simp only [addNew, List.mem_cons, forall_eq_or_imp, List.map_cons]
    cases hd : DecodeString k with
    | none =>
      constructor
      · intro h; cases h
      · rintro ⟨⟨⟨b, hb, _⟩, _⟩, _⟩
        rw [hd] at hb; cases hb
    | some b =>
      by_cases hl : b.length = 32
      · have hg : GoodKey k := ⟨b, hd, hl⟩
        have hop : newOp defNode (k, node) =
            { PublicKey := b, Remove := false,
              PersistentKeepaliveInterval := some (resolveKeepalive node defNode),
              ReplaceAllowedIPs := true, AllowedIPs := node.IPNets } := by
          simp [newOp, replaceOp, hd]
        simp only [NewKey, hl, ne_eq, not_true_eq_false, if_false]
        cases hr : addNew defNode rest with
        | error err =>
          constructor
          · intro h; cases h
          · rintro ⟨⟨_, hall⟩, _⟩
            have := (ih (rest.map (newOp defNode))).2 ⟨hall, rfl⟩
            rw [hr] at this; cases this
        | ok ups =>
          have h1 := (ih ups).1 hr
          constructor
          · intro h
            simp only [Except.ok.injEq] at h
            refine ⟨⟨hg, h1.1⟩, ?_⟩
            rw [← h, hop, h1.2]
          · rintro ⟨_, h⟩
            rw [h, hop, h1.2]
      · simp only [NewKey, ne_eq, hl, not_false_eq_true, if_true]
        constructor
        · intro h; cases h
        · rintro ⟨⟨⟨c, hc, hcl⟩, _⟩, _⟩
          rw [hd] at hc; cases hc; exact absurd hcl hl

theorem addNew_error_iff (defNode : NodeInfo) (l : NodeMap) :
    (∃ err, addNew defNode l = .error err) ↔ ∃ e ∈ l, ¬ GoodKey e.1 := by
  constructor
  · rintro ⟨err, h⟩
    by_contra hc
    simp only [not_exists, not_and, not_not] at hc
    have := (addNew_ok_iff defNode l _).2 ⟨hc, rfl⟩
    rw [h] at this; cases this
  · rintro ⟨e, he, hb⟩
    cases h : addNew defNode l with
    | error err => exact ⟨err, rfl⟩
    | ok news => exact absurd (((addNew_ok_iff defNode l news).1 h).1 e he) hb

/-! ## The whole call -/

theorem calculateWGPeerUpdates_ok (nodes : NodeMap) (defNode : NodeInfo) (dev : Device) :
    (calculateWGPeerUpdates (.ok (nodes, defNode)) dev).err = none ↔
      ∀ e ∈ unmatched dev.Peers nodes, GoodKey e.1 := by
  simp only [calculateWGPeerUpdates, updateExisting_nodes]
  cases h : addNew defNode (unmatched dev.Peers nodes) with
  | error err =>
    simp only [reduceCtorEq, false_iff]
    intro hall
    have := (addNew_ok_iff defNode _ _).2 ⟨hall, rfl⟩
    rw [h] at this; cases this
  | ok news => simpa using ((addNew_ok_iff defNode _ _).1 h).1

theorem calculateWGPeerUpdates_updates (nodes : NodeMap) (defNode : NodeInfo) (dev : Device)
    (h : (calculateWGPeerUpdates (.ok (nodes, defNode)) dev).err = none) :
    (calculateWGPeerUpdates (.ok (nodes, defNode)) dev).updates =
      (updateExisting defNode nodes dev.Peers).updates ++
        (unmatched dev.Peers nodes).map (newOp defNode) := by
  have hall := (calculateWGPeerUpdates_ok nodes defNode dev).1 h
  have := (addNew_ok_iff defNode _ _).2 ⟨hall, rfl⟩
  simp only [calculateWGPeerUpdates, updateExisting_nodes, this]

theorem calculateWGPeerUpdates_err (nodes : NodeMap) (defNode : NodeInfo) (dev : Device)
    (h : (calculateWGPeerUpdates (.ok (nodes, defNode)) dev).err ≠ none) :
    (calculateWGPeerUpdates (.ok (nodes, defNode)) dev).updates = [] := by
  simp only [calculateWGPeerUpdates] at h ⊢
  cases h2 : addNew defNode (updateExisting defNode nodes dev.Peers).nodes with
  | error err => rfl
  | ok news => simp [h2] at h

theorem mem_unmatched {peers : List Peer} {nodes : NodeMap} {e : Bytes × NodeInfo} :
    e ∈ unmatched peers nodes ↔
      e ∈ nodes ∧ ∀ p ∈ peers, EncodeToString p.PublicKey ≠ e.1 := by
  simp [unmatched, List.mem_filter]

/-! ## Claims on the diff -/

theorem newOp_remove (defNode : NodeInfo) (e : Bytes × NodeInfo) :
    (newOp defNode e).Remove = false := rfl

theorem filter_and_key (l : List PeerConfig) (key : Bytes) :
    l.filter (fun u => u.Remove && decide (u.PublicKey = key)) =
      (l.filter (fun u => decide (u.PublicKey = key))).filter (fun u => u.Remove) := by
  rw [List.filter_filter]

/-- C1: when the call returns without error and the peers of the device have
pairwise distinct public keys, a peer whose encoded key is no key of the
desired map gets exactly one operation with `Remove = true` and its public
key, and that operation has no allowed IPs and no keepalive. -/
theorem remove_for_vanished_peer (nodes : NodeMap) (defNode : NodeInfo) (dev : Device)
    (p : Peer)
    (hok : (calculateWGPeerUpdates (.ok (nodes, defNode)) dev).err = none)
    (hdist : DistinctKeys dev) (hp : p ∈ dev.Peers)
    (hkey : EncodeToString p.PublicKey ∉ nodes.map Prod.fst) :
    (calculateWGPeerUpdates (.ok (nodes, defNode)) dev).updates.filter
        (fun u => u.Remove && decide (u.PublicKey = p.PublicKey)) =
      [{ PublicKey := p.PublicKey, Remove := true, PersistentKeepaliveInterval := none,
         ReplaceAllowedIPs := false, AllowedIPs := [] }] := by
  have hl : mapLookup nodes (EncodeToString p.PublicKey) = none :=
    (mapLookup_eq_none_iff _ _).2 hkey
  rw [calculateWGPeerUpdates_updates nodes defNode dev hok, filter_and_key, List.filter_append,
    updateExisting_filter defNode nodes dev.Peers p hp hdist (Or.inl hl), hl, List.filter_append]
  have h2 : (((unmatched dev.Peers nodes).map (newOp defNode)).filter
      (fun u => decide (u.PublicKey = p.PublicKey))).filter (fun u => u.Remove) = [] := by
    rw [List.filter_eq_nil_iff]
    intro u hu
    obtain ⟨e, _, rfl⟩ := List.mem_map.1 (List.mem_filter.1 hu).1
    simp [newOp_remove]
  rw [h2]
  simp [opsFor, removeOp]

/-- Witness of C1 (Example 2 of the specification): nothing desired, one peer. -/
theorem remove_for_vanished_peer_witness :
    (calculateWGPeerUpdates (.ok ([], ⟨[], none⟩)) ⟨[⟨keyB, 0, [net32 2]⟩]⟩).updates.filter
        (fun u => u.Remove && decide (u.PublicKey = keyB)) =
      [{ PublicKey := keyB, Remove := true, PersistentKeepaliveInterval := none,
         ReplaceAllowedIPs := false, AllowedIPs := [] }] :=
  remove_for_vanished_peer [] ⟨[], none⟩ ⟨[⟨keyB, 0, [net32 2]⟩]⟩ ⟨keyB, 0, [net32 2]⟩
    (by decide) (by decide) (by decide) (by decide)

theorem filter_key_of_nodup (l : NodeMap) (k : Bytes) (node : NodeInfo)
    (hnd : (l.map Prod.fst).Nodup) (hmem : (k, node) ∈ l) :
    l.filter (fun e => decide (e.1 = k)) = [(k, node)] := by
  induction l with
  | nil => simp at hmem
  | cons e rest ih =>
    rw [List.map_cons, List.nodup_cons] at hnd
    rcases List.mem_cons.1 hmem with h | h
    · subst h
      have : rest.filter (fun e => decide (e.1 = k)) = [] := by
        rw [List.filter_eq_nil_iff]
        intro e he
        simp only [decide_eq_true_eq]
        intro hk
        exact hnd.1 (List.mem_map.2 ⟨e, he, hk⟩)
      simp [List.filter, this]
    · have hne : e.1 ≠ k := by
        intro hk
        exact hnd.1 (List.mem_map.2 ⟨(k, node), h, hk.symm⟩)
      simp [List.filter, hne, ih hnd.2 h]

theorem unmatched_sublist (peers : List Peer) (nodes : NodeMap) :
    (unmatched peers nodes).Sublist nodes := List.filter_sublist _

/-- C2, as amended: when the call succeeds, a desired entry `(k, node)` whose
key is not the encoding of any peer's public key gets a replace operation with
the 32 bytes decoded from `k`, `Remove = false`, `ReplaceAllowedIPs = true`,
the list `node.IPNets()` and the resolved keepalive; it is the only operation
with that public key when no other desired key decodes to the same bytes and no
peer of the device has them as its public key. -/
theorem replace_for_new_node (nodes : NodeMap) (defNode : NodeInfo) (dev : Device)
    (k : Bytes) (node : NodeInfo)
    (hok : (calculateWGPeerUpdates (.ok (nodes, defNode)) dev).err = none)
    (hmap : (nodes.map Prod.fst).Nodup)
    (hmem : (k, node) ∈ nodes)
    (hnew : ∀ p ∈ dev.Peers, EncodeToString p.PublicKey ≠ k) :
    ∃ pkey, DecodeString k = some pkey ∧ pkey.length = 32 ∧
      { PublicKey := pkey, Remove := false,
        PersistentKeepaliveInterval := some (resolveKeepalive node defNode),
        ReplaceAllowedIPs := true, AllowedIPs := node.IPNets } ∈
        (calculateWGPeerUpdates (.ok (nodes, defNode)) dev).updates ∧
      ((∀ e ∈ nodes, e.1 ≠ k → DecodeString e.1 ≠ some pkey) →
        (∀ p ∈ dev.Peers, p.PublicKey ≠ pkey) →
        (calculateWGPeerUpdates (.ok (nodes, defNode)) dev).updates.filter
            (fun u => decide (u.PublicKey = pkey)) =
          [{ PublicKey := pkey, Remove := false,
             PersistentKeepaliveInterval := some (resolveKeepalive node defNode),
             ReplaceAllowedIPs := true, AllowedIPs := node.IPNets }]) := by
  have hall := (calculateWGPeerUpdates_ok nodes defNode dev).1 hok
  have hun : (k, node) ∈ unmatched dev.Peers nodes := mem_unmatched.2 ⟨hmem, hnew⟩
  obtain ⟨pkey, hdec, hlen⟩ := hall _ hun
  have hop : newOp defNode (k, node) =
      { PublicKey := pkey, Remove := false,
        PersistentKeepaliveInterval := some (resolveKeepalive node defNode),
        ReplaceAllowedIPs := true, AllowedIPs := node.IPNets } := by
    simp [newOp, replaceOp, hdec]
  refine ⟨pkey, hdec, hlen, ?_, ?_⟩
  · rw [calculateWGPeerUpdates_updates nodes defNode dev hok, ← hop]
    exact List.mem_append_right _ (List.mem_map_of_mem _ hun)
  · intro honly hfresh
    rw [calculateWGPeerUpdates_updates nodes defNode dev hok, List.filter_append]
    have h1 : (updateExisting defNode nodes dev.Peers).updates.filter
        (fun u => decide (u.PublicKey = pkey)) = [] := by
      rw [List.filter_eq_nil_iff]
      intro u hu
      obtain ⟨q, hq, e⟩ := updateExisting_mem_key hu
      simp only [decide_eq_true_eq]
      rw [e]
      exact hfresh q hq
    have h2 : ((unmatched dev.Peers nodes).map (newOp defNode)).filter
        (fun u => decide (u.PublicKey = pkey)) =
        ((unmatched dev.Peers nodes).filter (fun e => decide (e.1 = k))).map
          (newOp defNode) := by
      rw [List.filter_map]
      congr 1
      apply List.filter_congr
      intro e he
      obtain ⟨b, hb, _⟩ := hall e he
      have hen := (mem_unmatched.1 he).1
      simp only [Function.comp, newOp, replaceOp, hb, Option.getD_some]
      by_cases hk : e.1 = k
      · have : b = pkey := by
          rw [hk, hdec] at hb
          exact (Option.some.inj hb).symm
        simp [hk, this]
      · have := honly e hen hk
        rw [hb] at this
        have hbp : ¬ b = pkey := fun x => this (by rw [x])
        simp [hk, hbp]
    rw [h1, h2, filter_key_of_nodup _ k node ((unmatched_sublist _ _).map _ |>.nodup hmap) hun]
    simp [hop]

/-- Witness of C2 (Example 3 of the specification): one desired node with no
keepalive of its own, a default keepalive of 15 s, no peers. -/
theorem replace_for_new_node_witness :
    ∃ pkey, DecodeString (EncodeToString keyB) = some pkey ∧ pkey.length = 32 ∧
      { PublicKey := pkey, Remove := false,
        PersistentKeepaliveInterval :=
          some (resolveKeepalive ⟨[net32 3], none⟩ ⟨[], some 15000000000⟩),
        ReplaceAllowedIPs := true, AllowedIPs := [net32 3] } ∈
        (calculateWGPeerUpdates
          (.ok ([(EncodeToString keyB, ⟨[net32 3], none⟩)], ⟨[], some 15000000000⟩))
          ⟨[]⟩).updates ∧
      ((∀ e ∈ [(EncodeToString keyB, (⟨[net32 3], none⟩ : NodeInfo))],
          e.1 ≠ EncodeToString keyB → DecodeString e.1 ≠ some pkey) →
        (∀ p ∈ (⟨[]⟩ : Device).Peers, p.PublicKey ≠ pkey) →
        (calculateWGPeerUpdates
          (.ok ([(EncodeToString keyB, ⟨[net32 3], none⟩)], ⟨[], some 15000000000⟩))
          ⟨[]⟩).updates.filter (fun u => decide (u.PublicKey = pkey)) =
          [{ PublicKey := pkey, Remove := false,
             PersistentKeepaliveInterval :=
               some (resolveKeepalive ⟨[net32 3], none⟩ ⟨[], some 15000000000⟩),
             ReplaceAllowedIPs := true, AllowedIPs := [net32 3] }]) :=
  replace_for_new_node [(EncodeToString keyB, ⟨[net32 3], none⟩)] ⟨[], some 15000000000⟩ ⟨[]⟩
    (EncodeToString keyB) ⟨[net32 3], none⟩ (by decide) (by decide) (by decide) (by decide)

/-- C2 fails as stated.  First input: two desired keys, neither of them the
encoding of a peer's key, decode to the same 32 bytes, and the call succeeds
with two operations for that public key.  Second input: one desired key that
is not the encoding of the peer's key decodes to the peer's key; the call
succeeds with a remove and a replace for that public key. -/
theorem replace_for_new_node_counterexample :
    ((calculateWGPeerUpdates (.ok ([(aliasA, ⟨[net32 1], none⟩), (aliasA2, ⟨[net32 2], none⟩)],
        ⟨[], none⟩)) ⟨[]⟩).err = none ∧
      DecodeString aliasA = some keyA ∧ DecodeString aliasA2 = some keyA ∧
      (calculateWGPeerUpdates (.ok ([(aliasA, ⟨[net32 1], none⟩), (aliasA2, ⟨[net32 2], none⟩)],
        ⟨[], none⟩)) ⟨[]⟩).updates =
        [⟨keyA, false, some 0, true, [net32 1]⟩, ⟨keyA, false, some 0, true, [net32 2]⟩]) ∧
    ((calculateWGPeerUpdates (.ok ([(aliasA, ⟨[net32 1], none⟩)], ⟨[], none⟩))
        ⟨[⟨keyA, 0, [net32 1]⟩]⟩).err = none ∧
      EncodeToString keyA ≠ aliasA ∧
      (calculateWGPeerUpdates (.ok ([(aliasA, ⟨[net32 1], none⟩)], ⟨[], none⟩))
        ⟨[⟨keyA, 0, [net32 1]⟩]⟩).updates =
        [⟨keyA, true, none, false, []⟩, ⟨keyA, false, some 0, true, [net32 1]⟩]) := by
  decide

theorem updateExisting_keepalive (defNode : NodeInfo) (nodes : NodeMap) (peers : List Peer)
    (u : PeerConfig) (hu : u ∈ (updateExisting defNode nodes peers).updates)
    (hr : u.Remove = false) :
    ∃ node, mapLookup nodes (EncodeToString u.PublicKey) = some node ∧
      u.PersistentKeepaliveInterval = some (resolveKeepalive node defNode) := by
  induction peers generalizing nodes with
  | nil => simp [updateExisting] at hu
  | cons q rest ih =>
    rw [(updateExisting_cons defNode nodes q rest).1, List.mem_append] at hu
    rcases hu with h | h
    · unfold opsFor at h
      split at h
      · simp only [List.mem_singleton] at h
        rw [h] at hr
        simp [removeOp] at hr
      · rename_i node hl
        split at h
        · simp only [List.mem_singleton] at h
          rw [h]
          exact ⟨node, hl, rfl⟩
        · simp at h
    · obtain ⟨node, hl, hk⟩ := ih _ h
      rw [mapLookup_mapDelete] at hl
      split at hl
      · cases hl
      · exact ⟨node, hl, hk⟩

theorem resolveKeepalive_spec (node defNode : NodeInfo) :
    (∀ n, node.WGKeepaliveTime = some n → resolveKeepalive node defNode = n) ∧
    (node.WGKeepaliveTime = none →
      ∀ d, defNode.WGKeepaliveTime = some d → resolveKeepalive node defNode = d) ∧
    (node.WGKeepaliveTime = none → defNode.WGKeepaliveTime = none →
      resolveKeepalive node defNode = 0) := by
  unfold resolveKeepalive
  refine ⟨?_, ?_, ?_⟩
  · intro n h; simp [h]
  · intro h d hd; simp [h, hd]
  · intro h hd; simp [h, hd]

/-- C5: every operation of the result that is not a remove belongs to a desired
entry (the entry under the encoded public key for a peer of the device, an
entry whose key decodes to the public key for a new peer) and carries a
keepalive: the node's own value when it has one, also when the default node
has one too; else the default node's value when that has one; else zero. -/
theorem keepalive_precedence (nodes : NodeMap) (defNode : NodeInfo) (dev : Device) :
    ∀ u ∈ (calculateWGPeerUpdates (.ok (nodes, defNode)) dev).updates, u.Remove = false →
      ∃ k node, (k, node) ∈ nodes ∧
        (k = EncodeToString u.PublicKey ∨ DecodeString k = some u.PublicKey) ∧
        ∃ v, u.PersistentKeepaliveInterval = some v ∧
          (∀ n, node.WGKeepaliveTime = some n → v = n) ∧
          (node.WGKeepaliveTime = none → ∀ d, defNode.WGKeepaliveTime = some d → v = d) ∧
          (node.WGKeepaliveTime = none → defNode.WGKeepaliveTime = none → v = 0) := by
  intro u hu hr
  by_cases hok : (calculateWGPeerUpdates (.ok (nodes, defNode)) dev).err = none
  · rw [calculateWGPeerUpdates_updates nodes defNode dev hok, List.mem_append] at hu
    rcases hu with h | h
    · obtain ⟨node, hl, hk⟩ := updateExisting_keepalive defNode nodes dev.Peers u h hr
      exact ⟨_, node, mapLookup_mem hl, Or.inl rfl, _, hk, resolveKeepalive_spec node defNode⟩
    · obtain ⟨e, he, rfl⟩ := List.mem_map.1 h
      obtain ⟨b, hb, _⟩ := (calculateWGPeerUpdates_ok nodes defNode dev).1 hok e he
      refine ⟨e.1, e.2, (mem_unmatched.1 he).1, Or.inr ?_, _, rfl,
        resolveKeepalive_spec e.2 defNode⟩
      simp [newOp, replaceOp, hb]
  · rw [calculateWGPeerUpdates_err nodes defNode dev hok] at hu
    simp at hu

/-- Witness of C5: an updated peer whose node has its own keepalive of 25 s
while the default node has one of 15 s. -/
theorem keepalive_precedence_witness :
    ∃ k node, (k, node) ∈ [(EncodeToString keyA, (⟨[net32 1], some 25000000000⟩ : NodeInfo))] ∧
      (k = EncodeToString (replaceOp keyA 25000000000 [net32 1]).PublicKey ∨
        DecodeString k = some (replaceOp keyA 25000000000 [net32 1]).PublicKey) ∧
      ∃ v, (replaceOp keyA 25000000000 [net32 1]).PersistentKeepaliveInterval = some v ∧
        (∀ n, node.WGKeepaliveTime = some n → v = n) ∧
        (node.WGKeepaliveTime = none →
          ∀ d, (⟨[], some 15000000000⟩ : NodeInfo).WGKeepaliveTime = some d → v = d) ∧
        (node.WGKeepaliveTime = none →
          (⟨[], some 15000000000⟩ : NodeInfo).WGKeepaliveTime = none → v = 0) :=
  keepalive_precedence [(EncodeToString keyA, ⟨[net32 1], some 25000000000⟩)]
    ⟨[], some 15000000000⟩ ⟨[⟨keyA, 0, [net32 2]⟩]⟩
    (replaceOp keyA 25000000000 [net32 1]) (by decide) (by decide)

/-- C6: after a successful fetch the call returns an error exactly when some
desired entry that no peer matches has a key that does not decode or does not
decode to 32 bytes; and with an error it returns no operation at all. -/
theorem fail_closed_diff (nodes : NodeMap) (defNode : NodeInfo) (dev : Device) :
    ((calculateWGPeerUpdates (.ok (nodes, defNode)) dev).err ≠ none ↔
      ∃ e ∈ nodes, (∀ p ∈ dev.Peers, EncodeToString p.PublicKey ≠ e.1) ∧
        (DecodeString e.1 = none ∨ ∃ b, DecodeString e.1 = some b ∧ b.length ≠ 32)) ∧
    ((calculateWGPeerUpdates (.ok (nodes, defNode)) dev).err ≠ none →
      (calculateWGPeerUpdates (.ok (nodes, defNode)) dev).updates = []) := by
  refine ⟨?_, calculateWGPeerUpdates_err nodes defNode dev⟩
  rw [ne_eq, calculateWGPeerUpdates_ok]
  constructor
  · intro h
    simp only [not_forall] at h
    obtain ⟨e, he, hb⟩ := h
    exact ⟨e, (mem_unmatched.1 he).1, (mem_unmatched.1 he).2, (not_goodKey_iff _).1 hb⟩
  · rintro ⟨e, he, hun, hb⟩ hall
    exact (not_goodKey_iff _).2 hb (hall e (mem_unmatched.2 ⟨he, hun⟩))

/-- Witness of C6: a peer without desired entry and a desired key `!`; the
remove computed for the peer is not returned. -/
theorem fail_closed_diff_witness :
    (calculateWGPeerUpdates (.ok ([(badKey, ⟨[net32 1], none⟩)], ⟨[], none⟩))
        ⟨[⟨keyA, 0, [net32 2]⟩]⟩).err ≠ none ∧
      (calculateWGPeerUpdates (.ok ([(badKey, ⟨[net32 1], none⟩)], ⟨[], none⟩))
        ⟨[⟨keyA, 0, [net32 2]⟩]⟩).updates = [] :=
  ⟨by decide,
   (fail_closed_diff [(badKey, ⟨[net32 1], none⟩)] ⟨[], none⟩ ⟨[⟨keyA, 0, [net32 2]⟩]⟩).2
     (by decide)⟩

theorem equalNetLoop_iff (s t : List IPNet) (h : s.length = t.length) :
    equalNetLoop s t = true ↔ s = t := by
  induction s generalizing t with
  | nil =>
    cases t with
    | nil => simp [equalNetLoop]
    | cons b t => simp at h
  | cons a s ih =>
    cases t with
    | nil => simp at h
    | cons b t =>
      simp only [List.length_cons, add_left_inj] at h
      obtain ⟨ai, am⟩ := a
      obtain ⟨bi, bm⟩ := b
      simp only [equalNetLoop, bytesEqual, List.cons.injEq, IPNet.mk.injEq]
      by_cases h1 : ai = bi
      · by_cases h2 : am = bm
        · simp [h1, h2, ih t h]
        · simp [h1, h2]
      · simp [h1]

theorem equalNet_iff (s t : List IPNet) : equalNet s t = true ↔ s = t := by
  unfold equalNet
  by_cases h : s.length = t.length
  · simp only [ne_eq, h, not_true_eq_false, if_false]
    exact equalNetLoop_iff s t h
  · simp only [ne_eq, h, not_false_eq_true, if_true, Bool.false_eq_true, false_iff]
    intro e
    exact h (by rw [e])

theorem opsFor_converged (defNode : NodeInfo) (node : NodeInfo) (p : Peer)
    (hperm : node.IPNets.Perm p.AllowedIPs)
    (hka : resolveKeepalive node defNode = p.PersistentKeepaliveInterval) :
    opsFor defNode (some node) p = [] := by
  have h1 : equalNet (sortIPNet node.IPNets) (sortIPNet p.AllowedIPs) = true :=
    (equalNet_iff _ _).2 (sortIPNet_congr hperm)
  simp [opsFor, h1, hka]

theorem opsFor_changed (defNode : NodeInfo) (node : NodeInfo) (p : Peer)
    (hchg : sortIPNet node.IPNets ≠ sortIPNet p.AllowedIPs ∨
      resolveKeepalive node defNode ≠ p.PersistentKeepaliveInterval) :
    opsFor defNode (some node) p =
      [replaceOp p.PublicKey (resolveKeepalive node defNode) (sortIPNet node.IPNets)] := by
  unfold opsFor
  rcases hchg with h | h
  · have h1 : equalNet (sortIPNet node.IPNets) (sortIPNet p.AllowedIPs) = false := by
      cases he : equalNet (sortIPNet node.IPNets) (sortIPNet p.AllowedIPs)
      · rfl
      · exact absurd ((equalNet_iff _ _).1 he) h
    simp [h1]
  · simp [h]

theorem distinct_encodings (dev : Device) (hwf : DeviceOK dev) (p : Peer) (hp : p ∈ dev.Peers) :
    ∀ q ∈ dev.Peers, q.PublicKey ≠ p.PublicKey →
      EncodeToString q.PublicKey ≠ EncodeToString p.PublicKey := by
  intro q hq hne he
  exact hne (EncodeToString_injective (hwf q hq).2 (hwf p hp).2 he)

theorem newOp_key_ne (nodes : NodeMap) (defNode : NodeInfo) (dev : Device) (p : Peer)
    (hp : p ∈ dev.Peers)
    (hok : (calculateWGPeerUpdates (.ok (nodes, defNode)) dev).err = none)
    (honly : ∀ e ∈ nodes, DecodeString e.1 = some p.PublicKey →
      e.1 = EncodeToString p.PublicKey) :
    ∀ u ∈ (unmatched dev.Peers nodes).map (newOp defNode), u.PublicKey ≠ p.PublicKey := by
  intro u hu hk
  obtain ⟨e, he, rfl⟩ := List.mem_map.1 hu
  obtain ⟨b, hb, _⟩ := (calculateWGPeerUpdates_ok nodes defNode dev).1 hok e he
  have hm := mem_unmatched.1 he
  simp only [newOp, replaceOp, hb, Option.getD_some] at hk
  rw [hk] at hb
  exact hm.2 p hp (honly e hm.1 hb).symm

/-- C3, as amended: with the peers' keys well formed and pairwise distinct, a
peer `p` that has a desired entry under its encoded key, whose desired
allowed-IP list is a permutation of its own and whose resolved keepalive is
its own, gets no operation with its public key, provided no other desired key
decodes to the public key of `p`; when every peer is in that state and every
desired key is the encoded key of a peer, the call succeeds with the empty
list; and `sortIPNet` sends two permutations of a list to the same sequence. -/
theorem converged_is_noop (nodes : NodeMap) (defNode : NodeInfo) (dev : Device)
    (hwf : DeviceOK dev) (hdist : DistinctKeys dev) :
    (∀ p ∈ dev.Peers, ∀ node, mapLookup nodes (EncodeToString p.PublicKey) = some node →
      node.IPNets.Perm p.AllowedIPs →
      resolveKeepalive node defNode = p.PersistentKeepaliveInterval →
      (∀ e ∈ nodes, DecodeString e.1 = some p.PublicKey →
        e.1 = EncodeToString p.PublicKey) →
      ∀ u ∈ (calculateWGPeerUpdates (.ok (nodes, defNode)) dev).updates,
        u.PublicKey ≠ p.PublicKey) ∧
    ((∀ p ∈ dev.Peers, ∃ node, mapLookup nodes (EncodeToString p.PublicKey) = some node ∧
        node.IPNets.Perm p.AllowedIPs ∧
        resolveKeepalive node defNode = p.PersistentKeepaliveInterval) →
      (∀ e ∈ nodes, ∃ p ∈ dev.Peers, e.1 = EncodeToString p.PublicKey) →
      (calculateWGPeerUpdates (.ok (nodes, defNode)) dev).updates = [] ∧
        (calculateWGPeerUpdates (.ok (nodes, defNode)) dev).err = none) ∧
    (∀ s t : List IPNet, s.Perm t → sortIPNet s = sortIPNet t) := by
  refine ⟨?_, ?_, fun s t h => sortIPNet_congr h⟩
  · intro p hp node hl hperm hka honly u hu hk
    by_cases hok : (calculateWGPeerUpdates (.ok (nodes, defNode)) dev).err = none
    · rw [calculateWGPeerUpdates_updates nodes defNode dev hok, List.mem_append] at hu
      rcases hu with h | h
      · have hf : u ∈ (updateExisting defNode nodes dev.Peers).updates.filter
            (fun u => decide (u.PublicKey = p.PublicKey)) :=
          List.mem_filter.2 ⟨h, by simp [hk]⟩
        rw [updateExisting_filter defNode nodes dev.Peers p hp hdist
          (Or.inr (distinct_encodings dev hwf p hp)), hl,
          opsFor_converged defNode node p hperm hka] at hf
        simp at hf
      · exact newOp_key_ne nodes defNode dev p hp hok honly u h hk
    · rw [calculateWGPeerUpdates_err nodes defNode dev hok] at hu
      simp at hu
  · intro hall hcover
    have hun : unmatched dev.Peers nodes = [] := by
      rw [unmatched, List.filter_eq_nil_iff]
      intro e he
      obtain ⟨p, hp, hk⟩ := hcover e he
      simp only [List.all_eq_true, decide_eq_true_eq, not_forall]
      exact ⟨p, hp, fun h => h hk.symm⟩
    have hok : (calculateWGPeerUpdates (.ok (nodes, defNode)) dev).err = none := by
      rw [calculateWGPeerUpdates_ok, hun]
      simp
    refine ⟨?_, hok⟩
    rw [calculateWGPeerUpdates_updates nodes defNode dev hok, hun, List.map_nil,
      List.append_nil, List.eq_nil_iff_forall_not_mem]
    intro u hu
    obtain ⟨q, hq, hk⟩ := updateExisting_mem_key hu
    obtain ⟨node, hl, hperm, hka⟩ := hall q hq
    have hf : u ∈ (updateExisting defNode nodes dev.Peers).updates.filter
        (fun u => decide (u.PublicKey = q.PublicKey)) :=
      List.mem_filter.2 ⟨hu, by simp [hk]⟩
    rw [updateExisting_filter defNode nodes dev.Peers q hq hdist
      (Or.inr (distinct_encodings dev hwf q hq)), hl,
      opsFor_converged defNode node q hperm hka] at hf
    simp at hf

/-- Witness of C3 (Example 4 of the specification): one peer, its desired
entry lists the same two networks in the other order, same keepalive. -/
theorem converged_is_noop_witness :
    (calculateWGPeerUpdates
        (.ok ([(EncodeToString keyA, ⟨[net32 2, net32 1], none⟩)], ⟨[], none⟩))
        ⟨[⟨keyA, 0, [net32 1, net32 2]⟩]⟩).updates = [] ∧
      (calculateWGPeerUpdates
        (.ok ([(EncodeToString keyA, ⟨[net32 2, net32 1], none⟩)], ⟨[], none⟩))
        ⟨[⟨keyA, 0, [net32 1, net32 2]⟩]⟩).err = none :=
  (converged_is_noop [(EncodeToString keyA, ⟨[net32 2, net32 1], none⟩)] ⟨[], none⟩
    ⟨[⟨keyA, 0, [net32 1, net32 2]⟩]⟩ (by decide) (by decide)).2.1
    (by
      intro p hp
      rw [List.mem_singleton] at hp
      subst hp
      exact ⟨⟨[net32 2, net32 1], none⟩, by decide, List.Perm.swap _ _ _, by decide⟩)
    (by
      intro e he
      rw [List.mem_singleton] at he
      subst he
      exact ⟨⟨keyA, 0, [net32 1, net32 2]⟩, List.mem_singleton.2 rfl, rfl⟩)

/-- C3 fails as stated: the peer is converged with the entry under its encoded
key, a second desired key decodes to the peer's public key, and the call
returns a replace operation with the peer's public key. -/
theorem converged_is_noop_counterexample :
    DistinctKeys ⟨[⟨keyA, 0, [net32 1]⟩]⟩ ∧
    mapLookup [(EncodeToString keyA, ⟨[net32 1], none⟩), (aliasA, ⟨[net32 3], none⟩)]
      (EncodeToString keyA) = some ⟨[net32 1], none⟩ ∧
    resolveKeepalive ⟨[net32 1], none⟩ ⟨[], none⟩ = 0 ∧
    (calculateWGPeerUpdates
      (.ok ([(EncodeToString keyA, ⟨[net32 1], none⟩), (aliasA, ⟨[net32 3], none⟩)],
        ⟨[], none⟩))
      ⟨[⟨keyA, 0, [net32 1]⟩]⟩).updates = [⟨keyA, false, some 0, true, [net32 3]⟩] := by
  decide

theorem ipNetOrd_desc {a b : IPNet} (h : ipNetOrd a b) :
    0 < bytesCompare a.IP b.IP ∨
      (bytesCompare a.IP b.IP = 0 ∧ 0 ≤ bytesCompare a.Mask b.Mask) := by
  rw [ipNetOrd_iff] at h
  unfold ipNetCmp at h
  by_cases h0 : bytesCompare a.IP b.IP = 0
  · simp only [ne_eq, h0, not_true_eq_false, if_false] at h
    exact Or.inr ⟨h0, h⟩
  · simp only [ne_eq, h0, not_false_eq_true, if_true] at h
    left; omega

/-- C4, as amended: when the call succeeds, the peers' keys are well formed and
pairwise distinct, and no other desired key decodes to the public key of `p`, a
peer `p` with a desired entry under its encoded key whose allowed-IP list
differs from the desired one in length or, both sorted by `sortIPNet`, at some
position in address or mask bytes, or whose keepalive differs from the
resolved one, gets exactly one operation with its public key: a replace with
`ReplaceAllowedIPs = true`, the resolved keepalive and the desired list in
canonical order, a permutation of `node.IPNets()` that descends in address
bytes, then mask bytes. -/
theorem changed_peer_is_replaced (nodes : NodeMap) (defNode : NodeInfo) (dev : Device)
    (p : Peer) (node : NodeInfo)
    (hok : (calculateWGPeerUpdates (.ok (nodes, defNode)) dev).err = none)
    (hwf : DeviceOK dev) (hdist : DistinctKeys dev) (hp : p ∈ dev.Peers)
    (hl : mapLookup nodes (EncodeToString p.PublicKey) = some node)
    (hchg : node.IPNets.length ≠ p.AllowedIPs.length ∨
      (∃ (i : Nat) (a b : IPNet), (sortIPNet node.IPNets)[i]? = some a ∧ (sortIPNet p.AllowedIPs)[i]? = some b ∧
        (a.IP ≠ b.IP ∨ a.Mask ≠ b.Mask)) ∨
      resolveKeepalive node defNode ≠ p.PersistentKeepaliveInterval)
    (honly : ∀ e ∈ nodes, DecodeString e.1 = some p.PublicKey →
      e.1 = EncodeToString p.PublicKey) :
    (calculateWGPeerUpdates (.ok (nodes, defNode)) dev).updates.filter
        (fun u => decide (u.PublicKey = p.PublicKey)) =
      [{ PublicKey := p.PublicKey, Remove := false,
         PersistentKeepaliveInterval := some (resolveKeepalive node defNode),
         ReplaceAllowedIPs := true, AllowedIPs := sortIPNet node.IPNets }] ∧
    (sortIPNet node.IPNets).Perm node.IPNets ∧
    List.Pairwise (fun a b => 0 < bytesCompare a.IP b.IP ∨
      (bytesCompare a.IP b.IP = 0 ∧ 0 ≤ bytesCompare a.Mask b.Mask))
      (sortIPNet node.IPNets) := by
  refine ⟨?_, sortIPNet_perm _, (sortIPNet_sorted node.IPNets).imp ipNetOrd_desc⟩
  have hchg' : sortIPNet node.IPNets ≠ sortIPNet p.AllowedIPs ∨
      resolveKeepalive node defNode ≠ p.PersistentKeepaliveInterval := by
    rcases hchg with h | ⟨i, a, b, ha, hb, hab⟩ | h
    · left
      intro e
      apply h
      rw [← (sortIPNet_perm node.IPNets).length_eq, e, (sortIPNet_perm p.AllowedIPs).length_eq]
    · left
      intro e
      rw [e, hb] at ha
      have hba : b = a := Option.some.inj ha
      subst hba
      rcases hab with h | h <;> exact h rfl
    · right; exact h
  rw [calculateWGPeerUpdates_updates nodes defNode dev hok, List.filter_append,
    updateExisting_filter defNode nodes dev.Peers p hp hdist
      (Or.inr (distinct_encodings dev hwf p hp)), hl, opsFor_changed defNode node p hchg']
  have h2 : ((unmatched dev.Peers nodes).map (newOp defNode)).filter
      (fun u => decide (u.PublicKey = p.PublicKey)) = [] := by
    rw [List.filter_eq_nil_iff]
    intro u hu
    simpa using newOp_key_ne nodes defNode dev p hp hok honly u hu
  rw [h2]
  rfl

/-- Witness of C4 (Example 1 of the specification): the peer has 10.0.0.2/32
and no keepalive, the desired entry 10.0.0.1/32 and 25 s. -/
theorem changed_peer_is_replaced_witness :
    (calculateWGPeerUpdates
        (.ok ([(EncodeToString keyA, ⟨[net32 1], some 25000000000⟩)], ⟨[], none⟩))
        ⟨[⟨keyA, 0, [net32 2]⟩]⟩).updates.filter (fun u => decide (u.PublicKey = keyA)) =
      [{ PublicKey := keyA, Remove := false,
         PersistentKeepaliveInterval :=
           some (resolveKeepalive ⟨[net32 1], some 25000000000⟩ ⟨[], none⟩),
         ReplaceAllowedIPs := true, AllowedIPs := sortIPNet [net32 1] }] ∧
    (sortIPNet [net32 1]).Perm [net32 1] ∧
    List.Pairwise (fun a b => 0 < bytesCompare a.IP b.IP ∨
      (bytesCompare a.IP b.IP = 0 ∧ 0 ≤ bytesCompare a.Mask b.Mask))
      (sortIPNet [net32 1]) :=
  changed_peer_is_replaced [(EncodeToString keyA, ⟨[net32 1], some 25000000000⟩)] ⟨[], none⟩
    ⟨[⟨keyA, 0, [net32 2]⟩]⟩ ⟨keyA, 0, [net32 2]⟩ ⟨[net32 1], some 25000000000⟩
    (by decide) (by decide) (by decide) (by decide) (by decide)
    (Or.inr (Or.inr (by decide)))
    (by
      intro e he
      rw [List.mem_singleton] at he
      subst he
      intro _
      rfl)

/-- C4 fails as stated.  First input: the peer's keepalive differs from the
desired one and another desired key is `!`; the call returns an error and no
operation for the peer.  Second input: the peer's keepalive differs and a
second desired key decodes to the peer's public key; the call returns two
operations with that public key. -/
theorem changed_peer_is_replaced_counterexample :
    ((calculateWGPeerUpdates
        (.ok ([(EncodeToString keyA, ⟨[net32 1], some 25000000000⟩),
          (badKey, ⟨[net32 3], none⟩)], ⟨[], none⟩))
        ⟨[⟨keyA, 0, [net32 1]⟩]⟩).err = some (.base64 badKey) ∧
      (calculateWGPeerUpdates
        (.ok ([(EncodeToString keyA, ⟨[net32 1], some 25000000000⟩),
          (badKey, ⟨[net32 3], none⟩)], ⟨[], none⟩))
        ⟨[⟨keyA, 0, [net32 1]⟩]⟩).updates = []) ∧
    ((calculateWGPeerUpdates
        (.ok ([(EncodeToString keyA, ⟨[net32 1], some 25000000000⟩),
          (aliasA, ⟨[net32 3], none⟩)], ⟨[], none⟩))
        ⟨[⟨keyA, 0, [net32 1]⟩]⟩).err = none ∧
      (calculateWGPeerUpdates
        (.ok ([(EncodeToString keyA, ⟨[net32 1], some 25000000000⟩),
          (aliasA, ⟨[net32 3], none⟩)], ⟨[], none⟩))
        ⟨[⟨keyA, 0, [net32 1]⟩]⟩).updates =
        [⟨keyA, false, some 25000000000, true, [net32 1]⟩,
         ⟨keyA, false, some 0, true, [net32 3]⟩]) := by
  decide

/-! ## The device after the call -/

theorem updateExisting_peers_rel (defNode : NodeInfo) (nodes : NodeMap) (peers : List Peer) :
    List.Forall₂ (fun p p' => p' = p ∨ p' = { p with AllowedIPs := sortIPNet p.AllowedIPs })
      peers (updateExisting defNode nodes peers).peers := by
  induction peers generalizing nodes with
  | nil => simp [updateExisting]
  | cons q rest ih =>
    rw [(updateExisting_cons defNode nodes q rest).2]
    refine List.Forall₂.cons ?_ (ih _)
    unfold touch
    split
    · left; rfl
    · right; rfl

theorem updateExisting_peers (defNode : NodeInfo) (nodes : NodeMap) (peers : List Peer)
    (hnd : (peers.map (fun p => EncodeToString p.PublicKey)).Nodup) :
    (updateExisting defNode nodes peers).peers =
      peers.map (fun p => touch (mapLookup nodes (EncodeToString p.PublicKey)) p) := by
  induction peers generalizing nodes with
  | nil => simp [updateExisting]
  | cons q rest ih =>
    rw [List.map_cons, List.nodup_cons] at hnd
    rw [(updateExisting_cons defNode nodes q rest).2, ih _ hnd.2, List.map_cons]
    congr 1
    apply List.map_congr_left
    intro p hp
    have hne : EncodeToString q.PublicKey ≠ EncodeToString p.PublicKey := by
      intro e
      exact hnd.1 (List.mem_map.2 ⟨p, hp, e.symm⟩)
    rw [mapLookup_mapDelete]
    simp [hne]

theorem nodup_encodings (dev : Device) (hwf : DeviceOK dev) (hdist : DistinctKeys dev) :
    (dev.Peers.map (fun p => EncodeToString p.PublicKey)).Nodup := by
  have h : (dev.Peers.map (fun p => EncodeToString p.PublicKey)) =
      (dev.Peers.map (fun p : Peer => p.PublicKey)).map EncodeToString := by
    rw [List.map_map]; rfl
  rw [h]
  apply List.Nodup.map_on _ hdist
  intro a ha b hb hab
  obtain ⟨p, hp, rfl⟩ := List.mem_map.1 ha
  obtain ⟨q, hq, rfl⟩ := List.mem_map.1 hb
  exact EncodeToString_injective (hwf p hp).2 (hwf q hq).2 hab

theorem calculateWGPeerUpdates_dev (nodes : NodeMap) (defNode : NodeInfo) (dev : Device) :
    (calculateWGPeerUpdates (.ok (nodes, defNode)) dev).dev.Peers =
      (updateExisting defNode nodes dev.Peers).peers := by
  simp only [calculateWGPeerUpdates]
  split <;> rfl

theorem sortIPNet_idem (s : List IPNet) : sortIPNet (sortIPNet s) = sortIPNet s :=
  sortIPNet_congr (sortIPNet_perm s)

theorem updateExisting_idem (defNode : NodeInfo) (nodes : NodeMap) (peers : List Peer) :
    updateExisting defNode nodes (updateExisting defNode nodes peers).peers =
      updateExisting defNode nodes peers := by
  induction peers generalizing nodes with
  | nil => rfl
  | cons q rest ih =>
    have hrest := ih (mapDelete nodes (EncodeToString q.PublicKey))
    cases hl : mapLookup nodes (EncodeToString q.PublicKey) with
    | none =>
      have h1 : updateExisting defNode nodes (q :: rest) =
          ⟨(updateExisting defNode (mapDelete nodes (EncodeToString q.PublicKey)) rest).nodes,
           { PublicKey := q.PublicKey, Remove := true, PersistentKeepaliveInterval := none,
             ReplaceAllowedIPs := false, AllowedIPs := [] } ::
             (updateExisting defNode (mapDelete nodes (EncodeToString q.PublicKey)) rest).updates,
           q :: (updateExisting defNode (mapDelete nodes (EncodeToString q.PublicKey))
             rest).peers⟩ := by
        simp only [updateExisting, hl]
      rw [h1]
      simp only [updateExisting, hl, hrest]
    | some node =>
      by_cases hc : (!equalNet (sortIPNet node.IPNets) (sortIPNet q.AllowedIPs) ||
          decide (resolveKeepalive node defNode ≠ q.PersistentKeepaliveInterval)) = true
      · have h1 : updateExisting defNode nodes (q :: rest) =
            ⟨(updateExisting defNode (mapDelete nodes (EncodeToString q.PublicKey)) rest).nodes,
             { PublicKey := q.PublicKey, Remove := false,
               PersistentKeepaliveInterval := some (resolveKeepalive node defNode),
               ReplaceAllowedIPs := true, AllowedIPs := sortIPNet node.IPNets } ::
               (updateExisting defNode (mapDelete nodes (EncodeToString q.PublicKey))
                 rest).updates,
             { q with AllowedIPs := sortIPNet q.AllowedIPs } ::
               (updateExisting defNode (mapDelete nodes (EncodeToString q.PublicKey))
                 rest).peers⟩ := by
          simp only [updateExisting, hl, hc, if_true]
        rw [h1]
        simp only [updateExisting, hl, hrest, sortIPNet_idem, hc, if_true]
      · have hc' := Bool.eq_false_iff.2 hc
        have h1 : updateExisting defNode nodes (q :: rest) =
            ⟨(updateExisting defNode (mapDelete nodes (EncodeToString q.PublicKey)) rest).nodes,
             (updateExisting defNode (mapDelete nodes (EncodeToString q.PublicKey))
               rest).updates,
             { q with AllowedIPs := sortIPNet q.AllowedIPs } ::
               (updateExisting defNode (mapDelete nodes (EncodeToString q.PublicKey))
                 rest).peers⟩ := by
          simp only [updateExisting, hl, hc', Bool.false_eq_true, if_false]
        rw [h1]
        simp only [updateExisting, hl, hrest, sortIPNet_idem, hc', Bool.false_eq_true, if_false]

theorem calculateWGPeerUpdates_nodes (nodes : NodeMap) (defNode : NodeInfo) (dev : Device) :
    (calculateWGPeerUpdates (.ok (nodes, defNode)) dev).nodes = unmatched dev.Peers nodes := by
  simp only [calculateWGPeerUpdates]
  split <;> exact updateExisting_nodes defNode nodes dev.Peers

theorem calculateWGPeerUpdates_idem (etcd : Except Error (NodeMap × NodeInfo)) (dev : Device) :
    calculateWGPeerUpdates etcd (calculateWGPeerUpdates etcd dev).dev =
      calculateWGPeerUpdates etcd dev := by
  cases etcd with
  | error err => rfl
  | ok a =>
    obtain ⟨nodes, defNode⟩ := a
    have hd : (calculateWGPeerUpdates (.ok (nodes, defNode)) dev).dev =
        ⟨(updateExisting defNode nodes dev.Peers).peers⟩ := by
      simp only [calculateWGPeerUpdates]
      split <;> rfl
    rw [hd]
    simp only [calculateWGPeerUpdates, updateExisting_idem]

/-- C9, as amended: the call leaves the device's peers in their order with
their public keys and keepalives; the allowed-IP list of a peer is left as it
was or reordered into the canonical order of `sortIPNet`, hence a permutation
of what it was; when the peers' keys are well formed and pairwise distinct,
the reordered peers are exactly those that have a desired entry under their
encoded key; a failed fetch leaves the device as it was.  The desired map is a
working copy: the deletions are made in the map of the call, which ends as the
entries that no peer matched, and they do not show outside: the same answer of
the store, given to a second call on the device as the first call left it,
yields the same operations, error, device and remaining entries. -/
theorem device_after_call (nodes : NodeMap) (defNode : NodeInfo) (dev : Device) :
    (∀ err, (calculateWGPeerUpdates (.error err) dev).dev = dev) ∧
    List.Forall₂ (fun p p' => p'.PublicKey = p.PublicKey ∧
        p'.PersistentKeepaliveInterval = p.PersistentKeepaliveInterval ∧
        (p'.AllowedIPs = p.AllowedIPs ∨ p'.AllowedIPs = sortIPNet p.AllowedIPs) ∧
        p'.AllowedIPs.Perm p.AllowedIPs)
      dev.Peers (calculateWGPeerUpdates (.ok (nodes, defNode)) dev).dev.Peers ∧
    (DeviceOK dev → DistinctKeys dev →
      (calculateWGPeerUpdates (.ok (nodes, defNode)) dev).dev.Peers =
        dev.Peers.map (fun p =>
          match mapLookup nodes (EncodeToString p.PublicKey) with
          | none => p
          | some _ => { p with AllowedIPs := sortIPNet p.AllowedIPs })) ∧
    (calculateWGPeerUpdates (.ok (nodes, defNode)) dev).nodes =
      nodes.filter (fun e =>
        dev.Peers.all (fun p => decide (EncodeToString p.PublicKey ≠ e.1))) ∧
    (∀ etcd, calculateWGPeerUpdates etcd (calculateWGPeerUpdates etcd dev).dev =
      calculateWGPeerUpdates etcd dev) := by
  refine ⟨fun err => rfl, ?_, ?_, calculateWGPeerUpdates_nodes nodes defNode dev,
    fun etcd => calculateWGPeerUpdates_idem etcd dev⟩
  · rw [calculateWGPeerUpdates_dev]
    refine (updateExisting_peers_rel defNode nodes dev.Peers).imp ?_
    intro p p' h
    rcases h with h | h
    · subst h
      exact ⟨rfl, rfl, Or.inl rfl, List.Perm.refl _⟩
    · subst h
      exact ⟨rfl, rfl, Or.inr rfl, sortIPNet_perm _⟩
  · intro hwf hdist
    rw [calculateWGPeerUpdates_dev,
      updateExisting_peers defNode nodes dev.Peers (nodup_encodings dev hwf hdist)]
    apply List.map_congr_left
    intro p _
    unfold touch
    split <;> simp_all

/-- Witness of C9: a peer with a desired entry and two networks in ascending
order, and a peer without desired entry; the first is reordered, the second is
left as it was. -/
theorem device_after_call_witness :
    (calculateWGPeerUpdates
        (.ok ([(EncodeToString keyA, ⟨[net32 1], none⟩)], ⟨[], none⟩))
        ⟨[⟨keyA, 0, [net32 1, net32 2]⟩, ⟨keyB, 0, [net32 3, net32 4]⟩]⟩).dev.Peers =
      [⟨keyA, 0, [net32 2, net32 1]⟩, ⟨keyB, 0, [net32 3, net32 4]⟩] :=
  (device_after_call [(EncodeToString keyA, ⟨[net32 1], none⟩)] ⟨[], none⟩
    ⟨[⟨keyA, 0, [net32 1, net32 2]⟩, ⟨keyB, 0, [net32 3, net32 4]⟩]⟩).2.2.1
    (by decide) (by decide)

/-- C9 fails as stated: after the call the allowed-IP list of the peer, which
the caller passed as 10.0.0.1/32, 10.0.0.2/32, reads 10.0.0.2/32,
10.0.0.1/32. -/
theorem device_after_call_counterexample :
    (calculateWGPeerUpdates
        (.ok ([(EncodeToString keyA, ⟨[net32 1, net32 2], none⟩)], ⟨[], none⟩))
        ⟨[⟨keyA, 0, [net32 1, net32 2]⟩]⟩).dev =
      ⟨[⟨keyA, 0, [net32 2, net32 1]⟩]⟩ ∧
    (calculateWGPeerUpdates
        (.ok ([(EncodeToString keyA, ⟨[net32 1, net32 2], none⟩)], ⟨[], none⟩))
        ⟨[⟨keyA, 0, [net32 1, net32 2]⟩]⟩).dev ≠ ⟨[⟨keyA, 0, [net32 1, net32 2]⟩]⟩ := by
  decide

theorem mapLookup_of_mem {nodes : NodeMap} {k : Bytes} {node : NodeInfo}
    (h : (k, node) ∈ nodes) : ∃ node', mapLookup nodes k = some node' := by
  cases hl : mapLookup nodes k with
  | some n => exact ⟨n, rfl⟩
  | none =>
    exact absurd (List.mem_map.2 ⟨(k, node), h, rfl⟩) ((mapLookup_eq_none_iff _ _).1 hl)

theorem mapLookup_of_mem_nodup {nodes : NodeMap} {e : Bytes × NodeInfo}
    (hmap : (nodes.map Prod.fst).Nodup) (he : e ∈ nodes) :
    mapLookup nodes e.1 = some e.2 := by
  obtain ⟨node, hl⟩ := mapLookup_of_mem (show (e.1, e.2) ∈ nodes from he)
  have h1 := filter_key_of_nodup nodes e.1 e.2 hmap he
  have h2 : (e.1, node) ∈ nodes.filter (fun x => decide (x.1 = e.1)) :=
    List.mem_filter.2 ⟨mapLookup_mem hl, by simp⟩
  rw [h1, List.mem_singleton] at h2
  rw [hl, (Prod.mk.inj h2).2]

theorem opsFor_some_eq (defNode node : NodeInfo) (p : Peer) :
    opsFor defNode (some node) p =
      if sortIPNet node.IPNets = sortIPNet p.AllowedIPs ∧
          resolveKeepalive node defNode = p.PersistentKeepaliveInterval then []
      else [{ PublicKey := p.PublicKey, Remove := false,
              PersistentKeepaliveInterval := some (resolveKeepalive node defNode),
              ReplaceAllowedIPs := true, AllowedIPs := sortIPNet node.IPNets }] := by
  by_cases h : sortIPNet node.IPNets = sortIPNet p.AllowedIPs ∧
      resolveKeepalive node defNode = p.PersistentKeepaliveInterval
  · rw [if_pos h]
    have h1 : equalNet (sortIPNet node.IPNets) (sortIPNet p.AllowedIPs) = true :=
      (equalNet_iff _ _).2 h.1
    simp [opsFor, h1, h.2]
  · rw [if_neg h]
    have h1 : sortIPNet node.IPNets ≠ sortIPNet p.AllowedIPs ∨
        resolveKeepalive node defNode ≠ p.PersistentKeepaliveInterval := by
      by_cases h2 : sortIPNet node.IPNets = sortIPNet p.AllowedIPs
      · exact Or.inr (fun h3 => h ⟨h2, h3⟩)
      · exact Or.inl h2
    rw [opsFor_changed defNode node p h1]
    rfl

/-- C10, as amended: for a successful call on a device whose peers have well
formed, pairwise distinct keys, and provided every desired key that decodes to
the public key of a peer is the URL-safe base64 encoding of that key, a desired
entry whose key decodes to the public key of a peer `p` is taken as the desired
configuration of `p`: the operations with the key of `p` are exactly what the
comparison of `p` with that entry gives, nothing when allowed IPs and keepalive
agree and else the one update replace, so there is neither a remove for `p`
nor a new-peer replace for that entry; and when the desired keys decode to
pairwise distinct byte strings, no public key occurs in two operations. -/
theorem correlated_on_encoded_key (nodes : NodeMap) (defNode : NodeInfo) (dev : Device)
    (hok : (calculateWGPeerUpdates (.ok (nodes, defNode)) dev).err = none)
    (hwf : DeviceOK dev) (hdist : DistinctKeys dev)
    (hmap : (nodes.map Prod.fst).Nodup)
    (hcanon : ∀ e ∈ nodes, ∀ p ∈ dev.Peers, DecodeString e.1 = some p.PublicKey →
      e.1 = EncodeToString p.PublicKey) :
    (∀ p ∈ dev.Peers, ∀ e ∈ nodes, DecodeString e.1 = some p.PublicKey →
      (calculateWGPeerUpdates (.ok (nodes, defNode)) dev).updates.filter
          (fun u => decide (u.PublicKey = p.PublicKey)) =
        if sortIPNet e.2.IPNets = sortIPNet p.AllowedIPs ∧
            resolveKeepalive e.2 defNode = p.PersistentKeepaliveInterval then []
        else [{ PublicKey := p.PublicKey, Remove := false,
                PersistentKeepaliveInterval := some (resolveKeepalive e.2 defNode),
                ReplaceAllowedIPs := true, AllowedIPs := sortIPNet e.2.IPNets }]) ∧
    ((∀ e ∈ nodes, ∀ e' ∈ nodes, DecodeString e.1 = DecodeString e'.1 → e.1 = e'.1) →
      ((calculateWGPeerUpdates (.ok (nodes, defNode)) dev).updates.map
        (fun u => u.PublicKey)).Nodup) := by
  have hall := (calculateWGPeerUpdates_ok nodes defNode dev).1 hok
  constructor
  · intro p hp e he hdec
    have hk := hcanon e he p hp hdec
    have hl := mapLookup_of_mem_nodup hmap he
    rw [hk] at hl
    rw [calculateWGPeerUpdates_updates nodes defNode dev hok, List.filter_append,
      updateExisting_filter defNode nodes dev.Peers p hp hdist
        (Or.inr (distinct_encodings dev hwf p hp)), hl]
    have h2 : ((unmatched dev.Peers nodes).map (newOp defNode)).filter
        (fun u => decide (u.PublicKey = p.PublicKey)) = [] := by
      rw [List.filter_eq_nil_iff]
      intro u hu
      simpa using newOp_key_ne nodes defNode dev p hp hok
        (fun e he h => hcanon e he p hp h) u hu
    rw [h2, List.append_nil, opsFor_some_eq]
  · intro hinj
    rw [calculateWGPeerUpdates_updates nodes defNode dev hok, List.map_append,
      List.nodup_append]
    refine ⟨(updateExisting_keys defNode nodes dev.Peers).nodup hdist, ?_, ?_⟩
    · have h : ((unmatched dev.Peers nodes).map (newOp defNode)).map (fun u => u.PublicKey) =
          ((unmatched dev.Peers nodes).map Prod.fst).map (fun k => (DecodeString k).getD []) := by
        rw [List.map_map, List.map_map]
        rfl
      rw [h]
      apply List.Nodup.map_on _ (((unmatched_sublist dev.Peers nodes).map _).nodup hmap)
      intro a ha b hb hab
      obtain ⟨e, he, rfl⟩ := List.mem_map.1 ha
      obtain ⟨e', he', rfl⟩ := List.mem_map.1 hb
      obtain ⟨x, hx, _⟩ := hall e he
      obtain ⟨y, hy, _⟩ := hall e' he'
      apply hinj e (mem_unmatched.1 he).1 e' (mem_unmatched.1 he').1
      rw [hx, hy] at hab ⊢
      simpa using hab
    · intro k hk1 hk2
      obtain ⟨u, hu, rfl⟩ := List.mem_map.1 hk1
      obtain ⟨v, hv, hvu⟩ := List.mem_map.1 hk2
      obtain ⟨q, hq, hqk⟩ := updateExisting_mem_key hu
      obtain ⟨e, he, rfl⟩ := List.mem_map.1 hv
      obtain ⟨x, hx, _⟩ := hall e he
      have hm := mem_unmatched.1 he
      simp only [newOp, replaceOp, hx, Option.getD_some] at hvu
      rw [hvu, hqk] at hx
      exact hm.2 q hq (hcanon e hm.1 q hq hx).symm

/-- Witness of C10: a peer whose desired entry, under its encoded key, asks for
another network, and a new node; the peer gets its one update replace and the
public keys of the result are pairwise distinct. -/
theorem correlated_on_encoded_key_witness :
    (calculateWGPeerUpdates
        (.ok ([(EncodeToString keyA, ⟨[net32 1], none⟩), (EncodeToString keyB, ⟨[net32 2], none⟩)],
          ⟨[], none⟩))
        ⟨[⟨keyA, 0, [net32 3]⟩]⟩).updates.filter (fun u => decide (u.PublicKey = keyA)) =
      [⟨keyA, false, some 0, true, [net32 1]⟩] ∧
    ((calculateWGPeerUpdates
        (.ok ([(EncodeToString keyA, ⟨[net32 1], none⟩), (EncodeToString keyB, ⟨[net32 2], none⟩)],
          ⟨[], none⟩))
        ⟨[⟨keyA, 0, [net32 3]⟩]⟩).updates.map (fun u => u.PublicKey)).Nodup :=
  ⟨(correlated_on_encoded_key
      [(EncodeToString keyA, ⟨[net32 1], none⟩), (EncodeToString keyB, ⟨[net32 2], none⟩)]
      ⟨[], none⟩ ⟨[⟨keyA, 0, [net32 3]⟩]⟩ (by decide) (by decide) (by decide) (by decide)
      (by decide)).1 ⟨keyA, 0, [net32 3]⟩ (by decide)
      (EncodeToString keyA, ⟨[net32 1], none⟩) (by decide) (by decide),
   (correlated_on_encoded_key
      [(EncodeToString keyA, ⟨[net32 1], none⟩), (EncodeToString keyB, ⟨[net32 2], none⟩)]
      ⟨[], none⟩ ⟨[⟨keyA, 0, [net32 3]⟩]⟩ (by decide) (by decide) (by decide) (by decide)
      (by decide)).2 (by decide)⟩

/-- C10 fails as stated.  First input: the only desired key decodes to the 32
bytes of the peer's public key and is not their encoding; the call succeeds
with a remove for the peer and a replace for the entry, both with the same
public key.  Second input: the device lists the same public key twice and the
desired entry under its encoding agrees with both peers; the call succeeds
with a remove for that key. -/
theorem correlated_on_encoded_key_counterexample :
    (DistinctKeys ⟨[⟨keyA, 0, [net32 5]⟩]⟩ ∧
      DecodeString aliasA2 = some keyA ∧
      (calculateWGPeerUpdates (.ok ([(aliasA2, ⟨[net32 5], none⟩)], ⟨[], none⟩))
          ⟨[⟨keyA, 0, [net32 5]⟩]⟩).err = none ∧
      (calculateWGPeerUpdates (.ok ([(aliasA2, ⟨[net32 5], none⟩)], ⟨[], none⟩))
          ⟨[⟨keyA, 0, [net32 5]⟩]⟩).updates =
        [⟨keyA, true, none, false, []⟩, ⟨keyA, false, some 0, true, [net32 5]⟩]) ∧
    (DecodeString (EncodeToString keyA) = some keyA ∧
      (calculateWGPeerUpdates (.ok ([(EncodeToString keyA, ⟨[net32 5], none⟩)], ⟨[], none⟩))
          ⟨[⟨keyA, 0, [net32 5]⟩, ⟨keyA, 0, [net32 5]⟩]⟩).err = none ∧
      (calculateWGPeerUpdates (.ok ([(EncodeToString keyA, ⟨[net32 5], none⟩)], ⟨[], none⟩))
          ⟨[⟨keyA, 0, [net32 5]⟩, ⟨keyA, 0, [net32 5]⟩]⟩).updates =
        [⟨keyA, true, none, false, []⟩]) := by
  decide

/-! ## Claims on the loop -/

theorem cycle_configure (config : CLIConfig) (env : CycleEnv) :
    ((cycle config env).1.filter Event.isConfigure).length ≤ 1 ∧
    ∀ name peers, Event.configureDevice name peers ∈ (cycle config env).1 →
      ∃ dev, env.device = .ok dev ∧ (calculateWGPeerUpdates env.etcd dev).err = none ∧
        config.Simulate = false ∧ peers ≠ [] ∧
        peers = (calculateWGPeerUpdates env.etcd dev).updates ∧
        name = config.WGDeviceName := by
  unfold cycle
  cases hd : env.device with
  | error err => simp [Event.isConfigure]
  | ok dev =>
    simp only
    cases he : (calculateWGPeerUpdates env.etcd dev).err with
    | some err => simp [Event.isConfigure]
    | none =>
      simp only
      by_cases hs : config.Simulate = true
      · simp [hs, Event.isConfigure]
      · by_cases hlen : (calculateWGPeerUpdates env.etcd dev).updates.length = 0
        · simp [hs, hlen, Event.isConfigure]
        · have hne : (calculateWGPeerUpdates env.etcd dev).updates ≠ [] := by
            intro h; exact hlen (by rw [h]; rfl)
          have hs' : config.Simulate = false := by simpa using hs
          cases hc : env.configure with
          | some err =>
            refine ⟨by simp [hs', hlen, hne, Event.isConfigure], ?_⟩
            intro name peers hmem
            simp [hs', hlen, hne] at hmem
            refine ⟨dev, rfl, he, hs', ?_, hmem.2, hmem.1⟩
            rw [hmem.2]; exact hne
          | none =>
            refine ⟨by simp [hs', hlen, hne, Event.isConfigure], ?_⟩
            intro name peers hmem
            simp [hs', hlen, hne] at hmem
            refine ⟨dev, rfl, he, hs', ?_, hmem.2, hmem.1⟩
            rw [hmem.2]; exact hne

theorem runLoop_configure (config : CLIConfig) (world : List CycleEnv) (name : String)
    (peers : List PeerConfig)
    (h : Event.configureDevice name peers ∈ (runLoop config world).1) :
    ∃ env ∈ world, Event.configureDevice name peers ∈ (cycle config env).1 := by
  induction world with
  | nil => simp [runLoop] at h
  | cons env rest ih =>
    simp only [runLoop] at h
    split at h
    · exact ⟨env, List.mem_cons_self _ _, h⟩
    · simp only [List.mem_append, List.mem_cons, reduceCtorEq, false_or] at h
      rcases h with h | h
      · exact ⟨env, List.mem_cons_self _ _, h⟩
      · obtain ⟨e, he, hx⟩ := ih h
        exact ⟨e, List.mem_cons_of_mem _ he, hx⟩

/-- C7: in each pass of the loop `ConfigureDevice` is called at most once, and
only when the device was read, the diff returned no error, simulate mode is
off and the list is not empty, and then with the whole list the diff returned;
so every `ConfigureDevice` of a run comes from such a pass, and a pass in
which reading the device or the diff fails calls none. -/
theorem configure_fail_closed (config : CLIConfig) :
    (∀ env, ((cycle config env).1.filter Event.isConfigure).length ≤ 1 ∧
      ∀ name peers, Event.configureDevice name peers ∈ (cycle config env).1 →
        ∃ dev, env.device = .ok dev ∧ (calculateWGPeerUpdates env.etcd dev).err = none ∧
          config.Simulate = false ∧ peers ≠ [] ∧
          peers = (calculateWGPeerUpdates env.etcd dev).updates ∧
          name = config.WGDeviceName) ∧
    (∀ env, env.Fails → ∀ ev ∈ (cycle config env).1, ev.isConfigure = false) ∧
    (∀ etcdConn wgNew world name peers,
      Event.configureDevice name peers ∈ (run config etcdConn wgNew world).1 →
        ∃ env ∈ world, ∃ dev, env.device = .ok dev ∧
          (calculateWGPeerUpdates env.etcd dev).err = none ∧
          config.Simulate = false ∧ peers ≠ [] ∧
          peers = (calculateWGPeerUpdates env.etcd dev).updates ∧
          name = config.WGDeviceName) := by
  refine ⟨cycle_configure config, ?_, ?_⟩
  · intro env hf ev hev
    cases ev with
    | configureDevice name peers =>
      obtain ⟨dev, hd, he, _⟩ := (cycle_configure config env).2 name peers hev
      unfold CycleEnv.Fails at hf
      rw [hd] at hf
      exact absurd he hf
    | _ => rfl
  · intro etcdConn wgNew world name peers h
    unfold run at h
    cases etcdConn with
    | some err => simp at h
    | none =>
      cases wgNew with
      | some err => simp at h
      | none =>
        obtain ⟨env, he, hx⟩ := runLoop_configure config world name peers h
        exact ⟨env, he, (cycle_configure config env).2 name peers hx⟩

/-- Witness of C7: a run of two passes in normal mode; the first pass fails at
the diff, the second finds one peer to remove and applies that list. -/
theorem configure_fail_closed_witness :
    ∃ env ∈ [(⟨.ok ⟨[⟨keyA, 0, []⟩]⟩, .error (.external "etcd"), none⟩ : CycleEnv),
        ⟨.ok ⟨[⟨keyA, 0, []⟩]⟩, .ok ([], ⟨[], none⟩), none⟩],
      ∃ dev, env.device = .ok dev ∧
        (calculateWGPeerUpdates env.etcd dev).err = none ∧
        (⟨"cfg", 60000000000, "wg-nodes", false⟩ : CLIConfig).Simulate = false ∧
        [removeOp ⟨keyA, 0, []⟩] ≠ [] ∧
        [removeOp ⟨keyA, 0, []⟩] = (calculateWGPeerUpdates env.etcd dev).updates ∧
        "wg-nodes" = (⟨"cfg", 60000000000, "wg-nodes", false⟩ : CLIConfig).WGDeviceName :=
  (configure_fail_closed ⟨"cfg", 60000000000, "wg-nodes", false⟩).2.2 none none
    [⟨.ok ⟨[⟨keyA, 0, []⟩]⟩, .error (.external "etcd"), none⟩,
     ⟨.ok ⟨[⟨keyA, 0, []⟩]⟩, .ok ([], ⟨[], none⟩), none⟩]
    "wg-nodes" [removeOp ⟨keyA, 0, []⟩] (by simp [run, runLoop, cycle, calculateWGPeerUpdates,
      updateExisting, addNew, mapLookup, removeOp])

theorem cycle_fails (config : CLIConfig) (env : CycleEnv) (h : env.Fails) :
    cycle config env = (failureEvents config env, false) := by
  unfold CycleEnv.Fails at h
  unfold cycle failureEvents
  cases hd : env.device with
  | error err => rfl
  | ok dev =>
    rw [hd] at h
    simp only at h ⊢
    cases he : (calculateWGPeerUpdates env.etcd dev).err with
    | some err => rfl
    | none => exact absurd he h

theorem failureEvents_cases (config : CLIConfig) (env : CycleEnv) (h : env.Fails) :
    (∃ err, env.device = .error err ∧
      failureEvents config env =
        [.readDevice config.WGDeviceName, .logDeviceError err]) ∨
    (∃ dev err, env.device = .ok dev ∧ (calculateWGPeerUpdates env.etcd dev).err = some err ∧
      failureEvents config env =
        [.readDevice config.WGDeviceName, .diff, .logDiffError err]) := by
  unfold CycleEnv.Fails at h
  unfold failureEvents
  cases hd : env.device with
  | error err => exact Or.inl ⟨err, rfl, rfl⟩
  | ok dev =>
    rw [hd] at h
    simp only at h ⊢
    cases he : (calculateWGPeerUpdates env.etcd dev).err with
    | some err => exact Or.inr ⟨dev, err, rfl, he, rfl⟩
    | none => exact absurd he h

theorem cycle_simulate (config : CLIConfig) (hsim : config.Simulate = true) (env : CycleEnv)
    (dev : Device) (hd : env.device = .ok dev)
    (he : (calculateWGPeerUpdates env.etcd dev).err = none) :
    cycle config env =
      ([.readDevice config.WGDeviceName, .diff,
        .printUpdates (calculateWGPeerUpdates env.etcd dev).updates], true) := by
  unfold cycle
  simp only [hd, he, hsim, if_true]

theorem runLoop_failed (config : CLIConfig) (failed world : List CycleEnv)
    (hf : ∀ f ∈ failed, f.Fails) :
    runLoop config (failed ++ world) =
      (failedPasses config failed ++ (runLoop config world).1, (runLoop config world).2) := by
  induction failed with
  | nil => simp [failedPasses]
  | cons f rest ih =>
    have h1 := cycle_fails config f (hf f (List.mem_cons_self _ _))
    have h2 := ih (fun g hg => hf g (List.mem_cons_of_mem _ hg))
    rw [List.cons_append]
    simp only [runLoop, h1, Bool.false_eq_true, if_false, failedPasses, List.append_assoc,
      List.cons_append]
    rw [h2]

theorem failedPasses_sleeps (config : CLIConfig) (failed : List CycleEnv)
    (hf : ∀ f ∈ failed, f.Fails) :
    ((failedPasses config failed).filter Event.isSleep).length = failed.length := by
  induction failed with
  | nil => rfl
  | cons f rest ih =>
    have hc : (failureEvents config f).filter Event.isSleep = [] := by
      rcases failureEvents_cases config f (hf f (List.mem_cons_self _ _)) with
        ⟨err, _, h⟩ | ⟨dev, err, _, _, h⟩ <;> rw [h] <;> rfl
    simp only [failedPasses, List.filter_append, hc, List.nil_append, List.filter,
      Event.isSleep, List.length_cons, ih (fun g hg => hf g (List.mem_cons_of_mem _ hg))]

/-- C8, as amended: started with `Simulate = true`, `run` never calls
`ConfigureDevice`, whatever the connections, the store and the controller do.
When a connection cannot be set up `run` ends with the fatal log before any
pass.  With both connections set up, a pass in which reading the device fails reads
the device and logs that error, a pass in which the diff fails reads the
device, runs the diff and logs that error, and both leave the loop body
without returning; `run` then is the row of failing passes, each followed by a
sleep, and after them the first pass in which the device is read and the diff
succeeds: that pass prints the list of the diff, empty or not, and ends `run`
with no sleep after it.  While every pass fails `run` does not return. -/
theorem simulate_until_first_diff (config : CLIConfig) (hsim : config.Simulate = true) :
    (∀ etcdConn wgNew world name peers,
      Event.configureDevice name peers ∉ (run config etcdConn wgNew world).1) ∧
    (∀ err wgNew world, run config (some err) wgNew world = ([.fatal err], true)) ∧
    (∀ err world, run config none (some err) world = ([.fatal err], true)) ∧
    (∀ env, env.Fails →
      (∃ err, env.device = .error err ∧
        cycle config env =
          ([.readDevice config.WGDeviceName, .logDeviceError err], false)) ∨
      (∃ dev err, env.device = .ok dev ∧
        (calculateWGPeerUpdates env.etcd dev).err = some err ∧
        cycle config env =
          ([.readDevice config.WGDeviceName, .diff, .logDiffError err], false))) ∧
    (∀ failed env rest dev, (∀ f ∈ failed, f.Fails) → env.device = .ok dev →
      (calculateWGPeerUpdates env.etcd dev).err = none →
      run config none none (failed ++ env :: rest) =
        (failedPasses config failed ++
          [.readDevice config.WGDeviceName, .diff,
           .printUpdates (calculateWGPeerUpdates env.etcd dev).updates], true) ∧
      ((failedPasses config failed).filter Event.isSleep).length = failed.length) ∧
    (∀ world, (∀ f ∈ world, f.Fails) →
      run config none none world = (failedPasses config world, false)) := by
  refine ⟨?_, fun _ _ _ => rfl, fun _ _ => rfl, ?_, ?_, ?_⟩
  · intro etcdConn wgNew world name peers h
    unfold run at h
    cases etcdConn with
    | some err => simp at h
    | none =>
      cases wgNew with
      | some err => simp at h
      | none =>
        obtain ⟨env, _, hx⟩ := runLoop_configure config world name peers h
        obtain ⟨_, _, _, hs, _⟩ := (cycle_configure config env).2 name peers hx
        rw [hsim] at hs
        cases hs
  · intro env hf
    rw [cycle_fails config env hf]
    rcases failureEvents_cases config env hf with ⟨err, hd, h⟩ | ⟨dev, err, hd, he, h⟩
    · exact Or.inl ⟨err, hd, by rw [h]⟩
    · exact Or.inr ⟨dev, err, hd, he, by rw [h]⟩
  · intro failed env rest dev hf hd he
    refine ⟨?_, failedPasses_sleeps config failed hf⟩
    show runLoop config (failed ++ env :: rest) = _
    rw [runLoop_failed config failed (env :: rest) hf]
    simp only [runLoop, cycle_simulate config hsim env dev hd he, if_true]
  · intro world hf
    show runLoop config world = _
    have := runLoop_failed config world [] hf
    simpa [runLoop] using this

/-- Witness of C8: simulate mode; the first pass cannot read the device, the
second reads it and fails in the diff, the third finds one peer to remove,
prints that list and ends `run`; two sleeps lie before it. -/
theorem simulate_until_first_diff_witness :
    run ⟨"cfg", 60000000000, "wg-nodes", true⟩ none none
        ([⟨.error (.external "no such device"), .ok ([], ⟨[], none⟩), none⟩,
          ⟨.ok ⟨[⟨keyA, 0, []⟩]⟩, .error (.external "etcd down"), none⟩] ++
          (⟨.ok ⟨[⟨keyA, 0, []⟩]⟩, .ok ([], ⟨[], none⟩), none⟩ : CycleEnv) :: []) =
      ([.readDevice "wg-nodes", .logDeviceError (.external "no such device"),
        .sleep 60000000000,
        .readDevice "wg-nodes", .diff, .logDiffError (.external "etcd down"),
        .sleep 60000000000,
        .readDevice "wg-nodes", .diff, .printUpdates [⟨keyA, true, none, false, []⟩]],
        true) ∧
      ((failedPasses ⟨"cfg", 60000000000, "wg-nodes", true⟩
        [⟨.error (.external "no such device"), .ok ([], ⟨[], none⟩), none⟩,
         ⟨.ok ⟨[⟨keyA, 0, []⟩]⟩, .error (.external "etcd down"), none⟩]).filter
        Event.isSleep).length = 2 :=
  (simulate_until_first_diff ⟨"cfg", 60000000000, "wg-nodes", true⟩ rfl).2.2.2.2.1
    [⟨.error (.external "no such device"), .ok ([], ⟨[], none⟩), none⟩,
     ⟨.ok ⟨[⟨keyA, 0, []⟩]⟩, .error (.external "etcd down"), none⟩]
    ⟨.ok ⟨[⟨keyA, 0, []⟩]⟩, .ok ([], ⟨[], none⟩), none⟩ [] ⟨[⟨keyA, 0, []⟩]⟩
    (by
      intro f hf
      rcases List.mem_cons.1 hf with h | h
      · subst h; trivial
      · rw [List.mem_singleton] at h
        subst h
        show (calculateWGPeerUpdates _ _).err ≠ none
        simp [calculateWGPeerUpdates])
    rfl rfl

/-- C8 fails as stated.  First input: in simulate mode, when the first read of
the device fails, `run` logs the error, sleeps, reads the device a second time
and only then prints the list and returns.  Second input: in simulate mode,
when the connection to the store cannot be set up, `run` ends with the fatal
log, without a fetch and without printing. -/
theorem simulate_until_first_diff_counterexample :
    run ⟨"cfg", 60000000000, "wg-nodes", true⟩ none none
        [⟨.error (.external "no such device"), .ok ([], ⟨[], none⟩), none⟩,
         ⟨.ok ⟨[]⟩, .ok ([], ⟨[], none⟩), none⟩] =
      ([.readDevice "wg-nodes", .logDeviceError (.external "no such device"),
        .sleep 60000000000, .readDevice "wg-nodes", .diff, .printUpdates []], true) ∧
    run ⟨"cfg", 60000000000, "wg-nodes", true⟩ (some (.external "no etcd")) none
        [⟨.ok ⟨[]⟩, .ok ([], ⟨[], none⟩), none⟩] =
      ([.fatal (.external "no etcd")], true) :=
  ⟨rfl, rfl⟩

end Concentratorconfig
